import Mathlib

/-!
Verification of the SMM (social media manager) data-structure core.

The definitions below are shallow embeddings of the C sources `src/smm.c`,
`src/smm.h` and `src/DSA_MINI_PROJECT.c`: C strings become `String`,
C `int`/`long` fields become `Int` (or `Nat` for never-negative counters and
indices), heap pointers become inductive trees / lists, and in-place pointer
mutation becomes explicit functional update of the owning structure.
Allocation is modelled as always succeeding (the C code's allocation-failure
branches leave the structure unchanged and report failure; none of the claims
under study concerns allocation failure itself).
-/

namespace SMM

/-! ### Demo limits (smm.h, Preset S) -/

def MAX_USERS : Nat := 10
def MAX_POSTS : Nat := 30
def MAX_MESSAGES : Nat := 20
def USERNAME_MAX : Nat := 32

/-! ### String comparison

C `strcmp` on NUL-free byte strings is a three-way lexicographic comparison;
for the printable-ASCII usernames accepted by the validators it coincides
with the lexicographic order on the character sequence.  We model it through
the lexicographic linear order on `List Char`. -/

/-- Lexicographic order on strings, via their character sequences
(`strcmp(a,b) < 0` in C). -/
def uLT (a b : String) : Prop := a.data < b.data

instance instDecULT (a b : String) : Decidable (uLT a b) :=
  inferInstanceAs (Decidable (a.data < b.data))

def strcmp (a b : String) : Ordering :=
  if uLT a b then .lt else if uLT b a then .gt else .eq

/-! ### Users and the BST index (smm.c lines 143-169, DSA_MINI_PROJECT.c 202-258) -/

/-- `struct User` of smm.h / DSA_MINI_PROJECT.c: username, plaintext
password, and the two derived counters (C `int`, modelled as `Int`). -/
structure User where
  username : String
  password : String
  followers : Int
  following : Int
deriving Repr, DecidableEq

/-- `struct UserNode`: a BST node owning one `User` and two subtrees. -/
inductive Tree where
  | nil : Tree
  | node : User → Tree → Tree → Tree
deriving Repr, DecidableEq

/-- `make_user` / `create_user_node`: fresh node, zeroed counters
(`calloc` / `memset`). -/
def make_user (u p : String) : Tree :=
  .node ⟨u, p, 0, 0⟩ .nil .nil

/-- `bst_insert` (smm.c 151-158 and, identically, DSA_MINI_PROJECT.c
219-232): returns the new root together with the `*ok` / `*inserted`
out-parameter. -/
def bst_insert : Tree → String → String → Tree × Bool
  | .nil, u, p => (make_user u p, true)
  | .node usr l r, u, p =>
    match strcmp u usr.username with
    | .eq => (.node usr l r, false)
    | .lt =>
      let res := bst_insert l u p
      (.node usr res.1 r, res.2)
    | .gt =>
      let res := bst_insert r u p
      (.node usr l res.1, res.2)

/-- `bst_find` (smm.c 159-165): lexicographic binary search. -/
def bst_find : Tree → String → Option User
  | .nil, _ => none
  | .node usr l r, u =>
    match strcmp u usr.username with
    | .eq => some usr
    | .lt => bst_find l u
    | .gt => bst_find r u

/-- Models an in-place mutation `n->user = f(n->user)` of the node that
`bst_find` would locate (the C code mutates through the pointer returned by
the search; the search path is the same). -/
def bst_update : Tree → String → (User → User) → Tree
  | .nil, _, _ => .nil
  | .node usr l r, u, f =>
    match strcmp u usr.username with
    | .eq => .node (f usr) l r
    | .lt => .node usr (bst_update l u f) r
    | .gt => .node usr l (bst_update r u f)

/-- A username occurs somewhere in the tree. -/
def MemT : Tree → String → Prop
  | .nil, _ => False
  | .node usr l r, u => usr.username = u ∨ MemT l u ∨ MemT r u

/-- Every user of the tree satisfies `p`. -/
def TreeForall (p : User → Prop) : Tree → Prop
  | .nil => True
  | .node usr l r => p usr ∧ TreeForall p l ∧ TreeForall p r

/-- The BST search invariant (strict lexicographic ordering). -/
def SortedT : Tree → Prop
  | .nil => True
  | .node usr l r =>
      TreeForall (fun v => uLT v.username usr.username) l ∧
      TreeForall (fun v => uLT usr.username v.username) r ∧
      SortedT l ∧ SortedT r

instance instDecMemT : (t : Tree) → (u : String) → Decidable (MemT t u)
  | .nil, _ => isFalse (fun h => h)
  | .node usr l r, u =>
    letI := instDecMemT l u
    letI := instDecMemT r u
    inferInstanceAs (Decidable (usr.username = u ∨ MemT l u ∨ MemT r u))

instance instDecTreeForall (p : User → Prop) [DecidablePred p] :
    (t : Tree) → Decidable (TreeForall p t)
  | .nil => isTrue trivial
  | .node usr l r =>
    letI := instDecTreeForall p l
    letI := instDecTreeForall p r
    inferInstanceAs (Decidable (p usr ∧ TreeForall p l ∧ TreeForall p r))

instance instDecSortedT : (t : Tree) → Decidable (SortedT t)
  | .nil => isTrue trivial
  | .node usr l r =>
    letI := instDecSortedT l
    letI := instDecSortedT r
    inferInstanceAs (Decidable (TreeForall (fun v => uLT v.username usr.username) l ∧
      TreeForall (fun v => uLT usr.username v.username) r ∧ SortedT l ∧ SortedT r))

/-- Modelled from the claim's words, for comparison with the source
function: simple recursive BST insertion placing the new key at the unique
leaf position determined by lexicographic comparison (and leaving the tree
unchanged when the key is already on the search path). -/
def bst_insert_spec (t : Tree) (u p : String) : Tree :=
  match t with
  | .nil => make_user u p
  | .node usr l r =>
    if uLT u usr.username then .node usr (bst_insert_spec l u p) r
    else if uLT usr.username u then .node usr l (bst_insert_spec r u p)
    else .node usr l r

/-! ### PostLog — dynamic array of published posts (smm.c lines 91-116) -/

/-- `struct Post` of smm.h. -/
structure Post where
  id : Nat
  author : String
  content : String
  timestamp : Int
deriving Repr, DecidableEq

/-- `struct PostArray` of smm.h: the stored posts (`data[0..size-1]`, as a
list whose length is `size`) and the allocated capacity. -/
structure PostArray where
  data : List Post
  cap : Nat
deriving Repr, DecidableEq

/-- `posts_add` (smm.c 99-108): hard stop at `MAX_POSTS`, growth by
doubling clamped to `MAX_POSTS` when full, then append. -/
def posts_add (pa : PostArray) (p : Post) : PostArray × Bool :=
  if pa.data.length ≥ MAX_POSTS then (pa, false)
  else
    let pa' : PostArray :=
      if pa.data.length = pa.cap then { pa with cap := min (pa.cap * 2) MAX_POSTS }
      else pa
    ({ pa' with data := pa'.data ++ [p] }, true)

/-! ### ScheduleList — sorted singly-linked list (DSA_MINI_PROJECT.c 49-327) -/

/-- `struct ScheduledPost` of DSA_MINI_PROJECT.c. -/
structure ScheduledPost where
  id : Nat
  author : String
  content : String
  scheduled_time : Int
deriving Repr, DecidableEq

/-- The `while (cur->next && cur->next->post.scheduled_time <= sp->scheduled_time)`
walk of `schedule_post_add`, starting from the list hanging off `cur`:
advances past every node with time ≤ the new node's time, then splices. -/
def schedule_add_go (sp : ScheduledPost) : List ScheduledPost → List ScheduledPost
  | [] => [sp]
  | h :: t =>
    if h.scheduled_time ≤ sp.scheduled_time then h :: schedule_add_go sp t
    else sp :: h :: t

/-- `schedule_post_add` (DSA_MINI_PROJECT.c 272-288): sorted insertion by
`scheduled_time`; a node is prepended only when its time is strictly below
the head's. -/
def schedule_post_add (l : List ScheduledPost) (sp : ScheduledPost) : List ScheduledPost :=
  match l with
  | [] => [sp]
  | h :: t =>
    if sp.scheduled_time < h.scheduled_time then sp :: h :: t
    else h :: schedule_add_go sp t

/-- `slist_pop_due` (DSA_MINI_PROJECT.c 305-315): repeatedly unlink the head
while it is due (`scheduled_time ≤ now`) and the output budget is not
exhausted; returns the popped posts in pop order together with the list that
remains. -/
def slist_pop_due (l : List ScheduledPost) (now : Int) (buf_len : Nat) :
    List ScheduledPost × List ScheduledPost :=
  match buf_len, l with
  | 0, _ => ([], l)
  | _, [] => ([], [])
  | b + 1, h :: t =>
    if h.scheduled_time ≤ now then
      let res := slist_pop_due t now b
      (h :: res.1, res.2)
    else ([], h :: t)

/-- Ascending `scheduled_time` order of adjacent nodes (the ScheduleList
representation invariant). -/
def timeSorted : List ScheduledPost → Prop
  | [] => True
  | [_] => True
  | a :: b :: t => a.scheduled_time ≤ b.scheduled_time ∧ timeSorted (b :: t)

instance instDecTimeSorted : (l : List ScheduledPost) → Decidable (timeSorted l)
  | [] => isTrue trivial
  | [_] => isTrue trivial
  | a :: b :: t =>
    letI := instDecTimeSorted (b :: t)
    inferInstanceAs (Decidable (a.scheduled_time ≤ b.scheduled_time ∧ timeSorted (b :: t)))

/-- Concrete scheduled posts for the spec's worked example (times 10/30/50). -/
def ex10 : ScheduledPost := ⟨1, "ann", "p1", 10⟩

def ex30 : ScheduledPost := ⟨2, "ann", "p2", 30⟩

def ex50 : ScheduledPost := ⟨3, "ann", "p3", 50⟩

/-! ### FollowGraph — adjacency lists (smm.c lines 171-248, smm.h 62-78) -/

/-- `struct GraphUser`: a username with its `following` and `followers`
adjacency lists (lists of usernames). -/
structure GraphUser where
  username : String
  following : List String
  followers : List String
deriving Repr, DecidableEq

/-- `struct Graph`: the user list (`head` chain) and `user_count`. -/
structure Graph where
  head : List GraphUser
  user_count : Nat
deriving Repr, DecidableEq

/-- `graph_init` (smm.c 172). -/
def graph_init : Graph := ⟨[], 0⟩

/-- `graph_find` (smm.c 174-178): first user in the chain with the given
username. -/
def graph_find : List GraphUser → String → Option GraphUser
  | [], _ => none
  | gu :: t, u => if gu.username = u then some gu else graph_find t u

/-- `adj_prepend` (smm.c 179-184), with allocation modelled as succeeding. -/
def adj_prepend (head : List String) (u : String) : List String := u :: head

/-- `adj_has` (smm.c 185-188). -/
def adj_has : List String → String → Bool
  | [], _ => false
  | h :: t, u => if h = u then true else adj_has t u

/-- `adj_remove` (smm.c 189-200): unlink the first node carrying `u`;
the Bool is the `*removed` out-parameter. -/
def adj_remove : List String → String → List String × Bool
  | [], _ => ([], false)
  | h :: t, u =>
    if h = u then (t, true)
    else
      let res := adj_remove t u
      (h :: res.1, res.2)

/-- Models the in-place field mutation, through the pointer returned by
`graph_find`, of the first GraphUser named `u`. -/
def updateUser (l : List GraphUser) (u : String) (f : GraphUser → GraphUser) :
    List GraphUser :=
  match l with
  | [] => []
  | gu :: t => if gu.username = u then f gu :: t else gu :: updateUser t u f

/-- `graph_add_user` (smm.c 201-209): idempotent on an existing name, fails
at the user cap, otherwise prepends a fresh user with empty lists. -/
def graph_add_user (g : Graph) (u : String) : Graph × Bool :=
  if (graph_find g.head u).isSome then (g, true)
  else if g.user_count ≥ MAX_USERS then (g, false)
  else ({ head := ⟨u, [], []⟩ :: g.head, user_count := g.user_count + 1 }, true)

/-- `graph_add_edge` (smm.c 210-216): fails when an endpoint is missing or
`from == to`; otherwise prepends each direction only if not already present
and reports success. -/
def graph_add_edge (g : Graph) (frm tgt : String) : Graph × Bool :=
  match graph_find g.head frm, graph_find g.head tgt with
  | some A, some B =>
    if frm = tgt then (g, false)
    else
      let h1 := if adj_has A.following tgt then g.head
        else updateUser g.head frm
          (fun gu => { gu with following := adj_prepend gu.following tgt })
      let h2 := if adj_has B.followers frm then h1
        else updateUser h1 tgt
          (fun gu => { gu with followers := adj_prepend gu.followers frm })
      ({ g with head := h2 }, true)
  | _, _ => (g, false)

/-- `graph_remove_edge` (smm.c 217-224): removes `to` from `frm`'s following
and `frm` from `to`'s followers, and reports `r1 && r2`. -/
def graph_remove_edge (g : Graph) (frm tgt : String) : Graph × Bool :=
  match graph_find g.head frm, graph_find g.head tgt with
  | some A, some B =>
    let res1 := adj_remove A.following tgt
    let h1 := updateUser g.head frm (fun gu => { gu with following := res1.1 })
    let res2 := adj_remove B.followers frm
    let h2 := updateUser h1 tgt (fun gu => { gu with followers := res2.1 })
    ({ g with head := h2 }, res1.2 && res2.2)
  | _, _ => (g, false)

/-- The `following` adjacency list of the first user named `u` in a chain
(empty when absent). -/
def adjFollowing (l : List GraphUser) (u : String) : List String :=
  match graph_find l u with
  | some gu => gu.following
  | none => []

/-- The `followers` adjacency list of the first user named `u` in a chain
(empty when absent). -/
def adjFollowers (l : List GraphUser) (u : String) : List String :=
  match graph_find l u with
  | some gu => gu.followers
  | none => []

/-- `following` list of user `u` in the graph. -/
def followingOf (g : Graph) (u : String) : List String := adjFollowing g.head u

/-- `followers` list of user `u` in the graph. -/
def followersOf (g : Graph) (u : String) : List String := adjFollowers g.head u

/-- FollowGraph representation well-formedness: usernames are pairwise
distinct (guaranteed by `graph_add_user`) and the adjacency lists are
duplicate-free (the spec's adjacency lists are sets; `graph_add_edge` only
prepends an absent entry). -/
def GraphWf (g : Graph) : Prop :=
  (g.head.map (fun gu => gu.username)).Nodup ∧
  ∀ gu ∈ g.head, gu.following.Nodup ∧ gu.followers.Nodup

instance instDecGraphWf (g : Graph) : Decidable (GraphWf g) :=
  inferInstanceAs (Decidable ((g.head.map (fun gu : GraphUser => gu.username)).Nodup ∧
    ∀ gu ∈ g.head, gu.following.Nodup ∧ gu.followers.Nodup))

/-- The spec's mirror invariant: an edge A→B is in A's following list iff
the mirror entry is in B's followers list. -/
def Mirror (g : Graph) : Prop :=
  ∀ a b : String, b ∈ followingOf g a ↔ a ∈ followersOf g b

/-- Executable check of the mirror invariant over the users that are
actually present. -/
def mirrorB (g : Graph) : Bool :=
  (g.head.all fun gu =>
    gu.following.all fun b => (followersOf g b).contains gu.username) &&
  (g.head.all fun gu =>
    gu.followers.all fun b => (followingOf g b).contains gu.username)

/-- Concrete mirrored graph: alice follows bob. -/
def exGraph : Graph := ⟨[⟨"bob", [], ["alice"]⟩, ⟨"alice", ["bob"], []⟩], 2⟩

/-- Concrete one-sided graph: the edge alice→bob is present only in alice's
following list. -/
def exGraphOneSided : Graph := ⟨[⟨"bob", [], []⟩, ⟨"alice", ["bob"], []⟩], 2⟩

/-- Concrete one-sided graph in the other direction: the edge alice→bob is
present only in bob's followers list. -/
def exGraphOneSided2 : Graph := ⟨[⟨"bob", [], ["alice"]⟩, ⟨"alice", [], []⟩], 2⟩

/-! ### MessageQueue — fixed-capacity circular buffer (smm.c lines 118-141,
smm.h 49-60) -/

/-- `struct Message` of smm.h (`from`/`to` renamed `mfrom`/`mto`: `from` is
reserved in Lean). -/
structure Message where
  mfrom : String
  mto : String
  content : String
  timestamp : Int
deriving Repr, DecidableEq

/-- Fallback element for buffer reads (never read under `CQWf`). -/
def mdefault : Message := ⟨"", "", "", 0⟩

/-- `struct MessageQueue` of smm.h: the preallocated buffer (a list whose
length is the capacity) plus head/tail/count. -/
structure CQueue where
  buf : List Message
  head : Nat
  tail : Nat
  count : Nat
deriving Repr, DecidableEq

/-- `mq_init` (smm.c 119): indices and count zeroed; the preallocated
buffer contents are arbitrary. -/
def mq_init (buf : List Message) : CQueue := ⟨buf, 0, 0, 0⟩

/-- `mq_enqueue` (smm.c 120-126), the capacity `MAX_MESSAGES` generalised
to a parameter `C`. -/
def mq_enqueue (C : Nat) (q : CQueue) (m : Message) : CQueue × Bool :=
  if q.count = C then (q, false)
  else
    ({ buf := q.buf.set q.tail m, head := q.head,
       tail := (q.tail + 1) % C, count := q.count + 1 }, true)

/-- `mq_dequeue` (smm.c 127-133): the out-parameter becomes an `Option`. -/
def mq_dequeue (C : Nat) (q : CQueue) : CQueue × Option Message :=
  if q.count = 0 then (q, none)
  else
    ({ q with head := (q.head + 1) % C, count := q.count - 1 },
      some (q.buf.getD q.head mdefault))

/-- Representation invariant of the circular buffer. -/
def CQWf (C : Nat) (q : CQueue) : Prop :=
  0 < C ∧ q.buf.length = C ∧ q.head < C ∧ q.count ≤ C ∧
    q.tail = (q.head + q.count) % C

instance instDecCQWf (C : Nat) (q : CQueue) : Decidable (CQWf C q) :=
  inferInstanceAs (Decidable (0 < C ∧ q.buf.length = C ∧ q.head < C ∧
    q.count ≤ C ∧ q.tail = (q.head + q.count) % C))

/-- The queue's abstract contents, oldest message first. -/
def mq_contents (C : Nat) (q : CQueue) : List Message :=
  (List.range q.count).map (fun i => q.buf.getD ((q.head + i) % C) mdefault)

/-- Concrete messages for the spec's C = 2 scenario. -/
def msgA : Message := ⟨"u", "v", "A", 0⟩

def msgB : Message := ⟨"u", "v", "B", 0⟩

def msgC : Message := ⟨"u", "v", "C", 0⟩

/-- Fresh capacity-2 queue. -/
def mq2 : CQueue := mq_init [mdefault, mdefault]

/-- The scenario states: A and B enqueued. -/
def mqS1 : CQueue := (mq_enqueue 2 mq2 msgA).1

def mqS2 : CQueue := (mq_enqueue 2 mqS1 msgB).1

/-- After the failed enqueue of C (full). -/
def mqS3 : CQueue := (mq_enqueue 2 mqS2 msgC).1

/-- After dequeuing A. -/
def mqS4 : CQueue := (mq_dequeue 2 mqS3).1

/-- After the now-successful enqueue of C. -/
def mqS5 : CQueue := (mq_enqueue 2 mqS4 msgC).1

def mqS6 : CQueue := (mq_dequeue 2 mqS5).1

def mqS7 : CQueue := (mq_dequeue 2 mqS6).1

/-! ### Application State — registration, login, follow/unfollow
(smm.c lines 84-89 and 250-340) -/

/-- C `isprint` for the byte values a `char` holds (0x20..0x7E). -/
def is_print (c : Char) : Bool := 0x20 ≤ c.toNat && c.toNat ≤ 0x7E

/-- C `isspace`: space, \t, \n, \v, \f, \r. -/
def is_space_chr (c : Char) : Bool := c.toNat = 0x20 || (9 ≤ c.toNat && c.toNat ≤ 13)

/-- `valid_name` (smm.c 84-89): non-empty, shorter than `USERNAME_MAX`,
printable and without whitespace. -/
def valid_name (s : String) : Bool :=
  s.length ≠ 0 && s.length < USERNAME_MAX &&
    s.data.all (fun c => !(is_space_chr c) && is_print c)

/-- `struct App` of smm.h, restricted to the fields the follow claims
touch; the session pointer `current` becomes the session user's name. -/
structure App where
  users_bst : Tree
  current : Option String
  graph : Graph
deriving Repr, DecidableEq

/-- `app_init` (smm.c 251-261) on the modelled fields; `max_users` keeps
its default `MAX_USERS`. -/
def app_init : App := ⟨.nil, none, graph_init⟩

/-- `ui_register` (smm.c 274-285), prompts replaced by parameters; branches
that only print leave the state unchanged. -/
def ui_register (app : App) (u p : String) : App :=
  if app.graph.user_count ≥ MAX_USERS then app
  else if ¬ valid_name u then app
  else if (bst_find app.users_bst u).isSome then app
  else
    let res := bst_insert app.users_bst u p
    let app1 := { app with users_bst := res.1 }
    if ¬ res.2 then app1
    else { app1 with graph := (graph_add_user app1.graph u).1 }

/-- `ui_login` (smm.c 287-295). -/
def ui_login (app : App) (u p : String) : App :=
  match bst_find app.users_bst u with
  | some usr => if usr.password = p then { app with current := some u } else app
  | none => app

/-- `ui_follow` (smm.c 319-329): also returns whether the graph edge
operation reported success (the "Now following" vs "Follow failed"
outcome); on success the session user's `following` and the target's
`followers` counters are incremented through the BST. -/
def ui_follow (app : App) (target : String) : App × Bool :=
  match app.current with
  | none => (app, false)
  | some actor =>
    if (bst_find app.users_bst target).isSome = false then (app, false)
    else
      let res := graph_add_edge app.graph actor target
      if res.2 then
        let t1 := bst_update app.users_bst actor
          (fun usr => { usr with following := usr.following + 1 })
        let t2 := bst_update t1 target
          (fun usr => { usr with followers := usr.followers + 1 })
        ({ app with users_bst := t2, graph := res.1 }, true)
      else ({ app with graph := res.1 }, false)

/-- `ui_unfollow` (smm.c 331-340): decrements guard against negatives; the
target's counter is touched only when `bst_find` locates it. -/
def ui_unfollow (app : App) (target : String) : App × Bool :=
  match app.current with
  | none => (app, false)
  | some actor =>
    let res := graph_remove_edge app.graph actor target
    if res.2 then
      let t1 := bst_update app.users_bst actor
        (fun usr => if usr.following > 0 then { usr with following := usr.following - 1 }
          else usr)
      let t2 := bst_update t1 target
        (fun usr => if usr.followers > 0 then { usr with followers := usr.followers - 1 }
          else usr)
      ({ app with users_bst := t2, graph := res.1 }, true)
    else ({ app with graph := res.1 }, false)

/-- The C1 trace: register alice and bob, log in as alice. -/
def exApp1 : App := ui_login (ui_register (ui_register app_init "alice" "pw") "bob" "pw") "alice" "pw"

/-- First follow of bob (succeeds, edge added). -/
def exApp2 : App × Bool := ui_follow exApp1 "bob"

/-- Second follow of bob (the graph operation still reports success but
adds nothing; the counters are incremented again). -/
def exApp3 : App × Bool := ui_follow exApp2.1 "bob"

/-! ### Publishing and the post-id counter (DSA_MINI_PROJECT.c lines
119-126, 144-153, 180-195, 471-487, 507-552) -/

def CONTENT_MAX : Nat := 512

/-- `validate_content` (DSA_MINI_PROJECT.c 120-126): non-empty, below
`CONTENT_MAX`. -/
def validate_content (s : String) : Bool := s.length ≠ 0 && s.length < CONTENT_MAX

def INITIAL_POST_CAP : Nat := 16

/-- `struct PostArray` of DSA_MINI_PROJECT.c (field named `capacity`
there); the lazy re-init branch for a never-allocated `data` is modelled by
`capacity = 0`. -/
structure PostArray2 where
  data : List Post
  capacity : Nat
deriving Repr, DecidableEq

/-- `push_post_array` (DSA_MINI_PROJECT.c 180-195): doubling growth with no
hard cap, then append (allocation modelled as succeeding). -/
def push_post_array (pa : PostArray2) (p : Post) : PostArray2 :=
  let pa1 := if pa.capacity = 0 then { pa with capacity := INITIAL_POST_CAP } else pa
  let pa2 := if pa1.data.length ≥ pa1.capacity then
      { pa1 with capacity := pa1.capacity * 2 }
    else pa1
  { pa2 with data := pa2.data ++ [p] }

/-- `publish_post` (DSA_MINI_PROJECT.c 471-487): validate, then draw a
fresh id from the `next_post_id` counter (threaded explicitly), stamp the
current time and append; an invalid content publishes nothing and draws no
id. -/
def publish_post (ctr : Nat) (pa : PostArray2) (author content : String) (now : Int) :
    Nat × PostArray2 × Bool :=
  if validate_content content then
    (ctr + 1, push_post_array pa ⟨ctr, author, content, now⟩, true)
  else (ctr, pa, false)

/-- The state-changing core of `schedule_post_ui` (DSA_MINI_PROJECT.c
507-539), after its validation has passed: the ScheduledPost is built with
a fresh id from the counter and inserted into the sorted list. -/
def schedule_post_core (ctr : Nat) (sl : List ScheduledPost) (author content : String)
    (when : Int) : Nat × List ScheduledPost :=
  (ctr + 1, schedule_post_add sl ⟨ctr, author, content, when⟩)

/-- The publishing loop of `process_scheduled` (DSA_MINI_PROJECT.c
548-551). -/
def publish_many (ctr : Nat) (pa : PostArray2) (l : List ScheduledPost) (now : Int) :
    Nat × PostArray2 :=
  match l with
  | [] => (ctr, pa)
  | sp :: t =>
    let res := publish_post ctr pa sp.author sp.content now
    publish_many res.1 res.2.1 t now

/-- `process_scheduled` (DSA_MINI_PROJECT.c 542-552): pop up to 256 due
posts, publish each in order. -/
def process_scheduled (ctr : Nat) (pa : PostArray2) (sl : List ScheduledPost)
    (now : Int) : Nat × PostArray2 × List ScheduledPost :=
  let pr := slist_pop_due sl now 256
  let res := publish_many ctr pa pr.1 now
  (res.1, res.2, pr.2)

/-- The ids and contents `publish_many` produces: consecutive counter
values, authors and contents carried over, publish-time timestamps. -/
def publish_out (ctr : Nat) (l : List ScheduledPost) (now : Int) : List Post :=
  match l with
  | [] => []
  | sp :: t => ⟨ctr, sp.author, sp.content, now⟩ :: publish_out (ctr + 1) t now

/-- The C2 trace: one post scheduled on a fresh system (counter 1). -/
def c2sched : Nat × List ScheduledPost := schedule_post_core 1 [] "ann" "hi" 10

/-- ... then processed when due. -/
def c2proc : Nat × PostArray2 × List ScheduledPost :=
  process_scheduled c2sched.1 ⟨[], INITIAL_POST_CAP⟩ c2sched.2 10

/-- A concrete post and a full-at-capacity-16 smm.c PostArray. -/
def exPost : Post := ⟨1, "ann", "hi", 0⟩

def exPA16 : PostArray := ⟨List.replicate 16 exPost, 16⟩

/-- Concrete two-user tree (bob at the root, alice in the left subtree). -/
def exTree : Tree := (bst_insert (bst_insert .nil "bob" "pw1").1 "alice" "pw2").1

/-- The spec's worked ScheduleList example: times 50, 10, 30 inserted in that
order. -/
def exList : List ScheduledPost :=
  schedule_post_add (schedule_post_add (schedule_post_add [] ex50) ex10) ex30

/-! ### Theorems -/

theorem timeSorted_cons {a : ScheduledPost} {l : List ScheduledPost}
    (h : timeSorted (a :: l)) : timeSorted l := by
  match l with
  | [] => trivial
  | b :: t => exact h.2

theorem timeSorted_head_le {a x : ScheduledPost} {l : List ScheduledPost}
    (h : timeSorted (a :: l)) (hx : x ∈ l) :
    a.scheduled_time ≤ x.scheduled_time := by
  induction l generalizing a with
  | nil => cases hx
  | cons b t ih =>
    rcases List.mem_cons.mp hx with rfl | hx
    · exact h.1
    · exact le_trans h.1 (ih h.2 hx)

theorem timeSorted_cons_iff {a : ScheduledPost} {l : List ScheduledPost} :
    timeSorted (a :: l) ↔
      ((∀ y, l.head? = some y → a.scheduled_time ≤ y.scheduled_time) ∧ timeSorted l) := by
  cases l with
  | nil => simp [timeSorted]
  | cons b t => simp [timeSorted]

theorem head?_takeWhile {α : Type} (p : α → Bool) {l : List α} {y : α}
    (h : (l.takeWhile p).head? = some y) : l.head? = some y := by
  cases l with
  | nil => simp [List.takeWhile] at h
  | cons a t =>
    by_cases hp : p a = true
    · simp only [List.takeWhile_cons, hp, if_true, List.head?] at h ⊢
      exact h
    · simp [List.takeWhile_cons, hp] at h

theorem head?_take {α : Type} {k : Nat} {l : List α} {y : α}
    (h : (l.take k).head? = some y) : l.head? = some y := by
  cases l with
  | nil => simp at h
  | cons a t =>
    cases k with
    | zero => simp at h
    | succ b => simpa using h

theorem mem_of_mem_takeWhile {α : Type} {p : α → Bool} {l : List α} {x : α}
    (h : x ∈ l.takeWhile p) : x ∈ l := by
  induction l with
  | nil => simpa using h
  | cons a t ih =>
    by_cases hp : p a = true
    · rcases List.mem_cons.mp (by simpa [List.takeWhile_cons, hp] using h) with rfl | h'
      · exact List.mem_cons_self _ _
      · exact List.mem_cons_of_mem _ (ih h')
    · simp [List.takeWhile_cons, hp] at h

theorem pred_of_mem_takeWhile {α : Type} {p : α → Bool} {l : List α} {x : α}
    (h : x ∈ l.takeWhile p) : p x = true := by
  induction l with
  | nil => simpa using h
  | cons a t ih =>
    by_cases hp : p a = true
    · rcases List.mem_cons.mp (by simpa [List.takeWhile_cons, hp] using h) with rfl | h'
      · exact hp
      · exact ih h'
    · simp [List.takeWhile_cons, hp] at h

theorem mem_of_mem_take {α : Type} {k : Nat} {l : List α} {x : α}
    (h : x ∈ l.take k) : x ∈ l := by
  induction l generalizing k with
  | nil => simpa using h
  | cons a t ih =>
    cases k with
    | zero => simp at h
    | succ b =>
      rcases List.mem_cons.mp (by simpa using h) with rfl | h'
      · exact List.mem_cons_self _ _
      · exact List.mem_cons_of_mem _ (ih h')

theorem timeSorted_takeWhile (p : ScheduledPost → Bool) {l : List ScheduledPost}
    (hs : timeSorted l) : timeSorted (l.takeWhile p) := by
  induction l with
  | nil => trivial
  | cons h t ih =>
    obtain ⟨hhead, ht⟩ := timeSorted_cons_iff.mp hs
    by_cases hp : p h = true
    · simp only [List.takeWhile_cons, hp, if_true]
      exact timeSorted_cons_iff.mpr
        ⟨fun y hy => hhead y (head?_takeWhile p hy), ih ht⟩
    · simp only [List.takeWhile_cons, hp, if_false]
      trivial

theorem timeSorted_take {l : List ScheduledPost} (hs : timeSorted l) (k : Nat) :
    timeSorted (l.take k) := by
  induction l generalizing k with
  | nil => simpa using hs
  | cons h t ih =>
    cases k with
    | zero => trivial
    | succ b =>
      obtain ⟨hhead, ht⟩ := timeSorted_cons_iff.mp hs
      rw [List.take_succ_cons]
      exact timeSorted_cons_iff.mpr ⟨fun y hy => hhead y (head?_take hy), ih ht b⟩

theorem schedule_add_go_eq (sp : ScheduledPost) (l : List ScheduledPost) :
    schedule_add_go sp l =
      l.takeWhile (fun x => x.scheduled_time ≤ sp.scheduled_time) ++
        sp :: l.dropWhile (fun x => x.scheduled_time ≤ sp.scheduled_time) := by
  induction l with
  | nil => simp [schedule_add_go]
  | cons h t ih =>
    by_cases hc : h.scheduled_time ≤ sp.scheduled_time
    · simp [schedule_add_go, hc, List.takeWhile_cons, List.dropWhile_cons, ih]
    · simp [schedule_add_go, hc, List.takeWhile_cons, List.dropWhile_cons]

theorem schedule_post_add_eq (l : List ScheduledPost) (sp : ScheduledPost) :
    schedule_post_add l sp =
      l.takeWhile (fun x => x.scheduled_time ≤ sp.scheduled_time) ++
        sp :: l.dropWhile (fun x => x.scheduled_time ≤ sp.scheduled_time) := by
  cases l with
  | nil => simp [schedule_post_add]
  | cons h t =>
    by_cases hc : sp.scheduled_time < h.scheduled_time
    · have hnle : ¬ h.scheduled_time ≤ sp.scheduled_time := not_le.mpr hc
      simp [schedule_post_add, hc, hnle, List.takeWhile_cons, List.dropWhile_cons]
    · have hle : h.scheduled_time ≤ sp.scheduled_time := not_lt.mp hc
      simp [schedule_post_add, hc, hle, List.takeWhile_cons, List.dropWhile_cons,
        schedule_add_go_eq]

theorem schedule_add_go_sorted (sp : ScheduledPost) (l : List ScheduledPost)
    (hs : timeSorted l) :
    timeSorted (schedule_add_go sp l) ∧
      ∀ c : ScheduledPost, c.scheduled_time ≤ sp.scheduled_time →
        (∀ x ∈ l, c.scheduled_time ≤ x.scheduled_time) →
        timeSorted (c :: schedule_add_go sp l) := by
  induction l with
  | nil =>
    refine ⟨trivial, ?_⟩
    intro c hc _
    exact ⟨hc, trivial⟩
  | cons h t ih =>
    obtain ⟨ih1, ih2⟩ := ih (timeSorted_cons hs)
    by_cases hc : h.scheduled_time ≤ sp.scheduled_time
    · have h1 : timeSorted (h :: schedule_add_go sp t) :=
        ih2 h hc (fun x hx => timeSorted_head_le hs hx)
      refine ⟨by simpa [schedule_add_go, hc] using h1, ?_⟩
      intro c _ hcall
      have hch : c.scheduled_time ≤ h.scheduled_time := hcall h (List.mem_cons_self _ _)
      have : timeSorted (c :: h :: schedule_add_go sp t) := ⟨hch, h1⟩
      simpa [schedule_add_go, hc] using this
    · have hsp : sp.scheduled_time ≤ h.scheduled_time := le_of_lt (not_le.mp hc)
      have h1 : timeSorted (sp :: h :: t) := ⟨hsp, hs⟩
      refine ⟨by simpa [schedule_add_go, hc] using h1, ?_⟩
      intro c hcsp _
      have : timeSorted (c :: sp :: h :: t) := ⟨hcsp, h1⟩
      simpa [schedule_add_go, hc] using this

theorem timeSorted_schedule_post_add (l : List ScheduledPost) (sp : ScheduledPost)
    (hs : timeSorted l) : timeSorted (schedule_post_add l sp) := by
  cases l with
  | nil => trivial
  | cons h t =>
    by_cases hc : sp.scheduled_time < h.scheduled_time
    · have : timeSorted (sp :: h :: t) := ⟨le_of_lt hc, hs⟩
      simpa [schedule_post_add, hc] using this
    · have hle : h.scheduled_time ≤ sp.scheduled_time := not_lt.mp hc
      have := (schedule_add_go_sorted sp t (timeSorted_cons hs)).2 h hle
        (fun x hx => timeSorted_head_le hs hx)
      simpa [schedule_post_add, hc] using this

theorem slist_pop_due_eq (now : Int) :
    ∀ (l : List ScheduledPost) (k : Nat),
      slist_pop_due l now k =
        ((l.takeWhile (fun x => x.scheduled_time ≤ now)).take k,
          l.drop ((l.takeWhile (fun x => x.scheduled_time ≤ now)).take k).length) := by
  intro l
  induction l with
  | nil => intro k; cases k <;> simp [slist_pop_due]
  | cons h t ih =>
    intro k
    cases k with
    | zero => simp [slist_pop_due]
    | succ b =>
      by_cases hc : h.scheduled_time ≤ now
      · simp [slist_pop_due, hc, List.takeWhile_cons, ih b]
      · simp [slist_pop_due, hc, List.takeWhile_cons]

theorem str_ext {a b : String} (h : a.data = b.data) : a = b := by
  cases a
  cases b
  simp only [] at h
  rw [h]

theorem uLT_trichotomy (a b : String) : uLT a b ∨ a = b ∨ uLT b a := by
  rcases lt_trichotomy a.data b.data with h | h | h
  · exact Or.inl h
  · exact Or.inr (Or.inl (str_ext h))
  · exact Or.inr (Or.inr h)

theorem uLT_asymm {a b : String} (h : uLT a b) : ¬ uLT b a := not_lt_of_gt h

theorem uLT_ne {a b : String} (h : uLT a b) : a ≠ b := by
  intro he
  subst he
  exact lt_irrefl _ h

theorem uLT_irrefl (a : String) : ¬ uLT a a := fun h => lt_irrefl _ h

theorem strcmp_eq_iff {a b : String} : strcmp a b = .eq ↔ a = b := by
  unfold strcmp
  rcases uLT_trichotomy a b with h | h | h
  · simp [h, uLT_asymm h, uLT_ne h]
  · subst h
    simp [uLT_irrefl a]
  · simp [h, uLT_asymm h, Ne.symm (uLT_ne h)]

theorem strcmp_lt_iff {a b : String} : strcmp a b = .lt ↔ uLT a b := by
  unfold strcmp
  rcases uLT_trichotomy a b with h | h | h
  · simp [h]
  · subst h
    simp [uLT_irrefl a]
  · simp [h, uLT_asymm h]

theorem strcmp_gt_iff {a b : String} : strcmp a b = .gt ↔ uLT b a := by
  unfold strcmp
  rcases uLT_trichotomy a b with h | h | h
  · simp [h, uLT_asymm h]
  · subst h
    simp [uLT_irrefl a]
  · simp [h, uLT_asymm h]

theorem memT_of_forall {p : User → Prop} {t : Tree} {u : String}
    (hf : TreeForall p t) (hm : MemT t u) : ∃ usr, usr.username = u ∧ p usr := by
  induction t with
  | nil => exact absurd hm (fun h => h)
  | node usr l r ihl ihr =>
    obtain ⟨hp, hl, hr⟩ := hf
    rcases hm with h | h | h
    · exact ⟨usr, h, hp⟩
    · exact ihl hl h
    · exact ihr hr h

theorem bst_insert_mem {t : Tree} {u p : String} (hs : SortedT t) (hm : MemT t u) :
    bst_insert t u p = (t, false) := by
  induction t with
  | nil => exact absurd hm (fun h => h)
  | node usr l r ihl ihr =>
    obtain ⟨hbl, hbr, hsl, hsr⟩ := hs
    rcases hm with h | h | h
    · simp [bst_insert, strcmp_eq_iff.mpr h.symm]
    · have hlt : uLT u usr.username := by
        obtain ⟨v, hv, hvp⟩ := memT_of_forall hbl h
        exact hv ▸ hvp
      simp [bst_insert, strcmp_lt_iff.mpr hlt, ihl hsl h]
    · have hgt : uLT usr.username u := by
        obtain ⟨v, hv, hvp⟩ := memT_of_forall hbr h
        exact hv ▸ hvp
      have hcmp : strcmp u usr.username = .gt := strcmp_gt_iff.mpr hgt
      simp [bst_insert, hcmp, ihr hsr h]

theorem bst_insert_not_mem {t : Tree} {u p : String} (hm : ¬ MemT t u) :
    bst_insert t u p = (bst_insert_spec t u p, true) := by
  induction t with
  | nil => simp [bst_insert, bst_insert_spec]
  | node usr l r ihl ihr =>
    have hne : usr.username ≠ u := fun h => hm (Or.inl h)
    have hml : ¬ MemT l u := fun h => hm (Or.inr (Or.inl h))
    have hmr : ¬ MemT r u := fun h => hm (Or.inr (Or.inr h))
    rcases uLT_trichotomy u usr.username with h | h | h
    · simp [bst_insert, bst_insert_spec, strcmp_lt_iff.mpr h, h, ihl hml]
    · exact absurd h.symm hne
    · have hcmp : strcmp u usr.username = .gt := strcmp_gt_iff.mpr h
      simp [bst_insert, bst_insert_spec, hcmp, uLT_asymm h, h, ihr hmr]

/-- C4: for every user BST, inserting a username already present returns
inserted=false and leaves the tree completely unchanged (same size, shape and
stored passwords, since the tree is returned as is); inserting a username not
present returns inserted=true and the result is exactly the tree produced by
simple recursive BST insertion at the unique leaf position determined by
lexicographic comparison. -/
theorem c4_bst_insert_duplicate_and_fresh (t : Tree) (u p : String) (hs : SortedT t) :
    (MemT t u → bst_insert t u p = (t, false)) ∧
    (¬ MemT t u → bst_insert t u p = (bst_insert_spec t u p, true)) :=
  ⟨fun hm => bst_insert_mem hs hm, fun hm => bst_insert_not_mem hm⟩

/-- Witness for C4 at the concrete two-user tree `exTree`. -/
theorem c4_bst_insert_duplicate_and_fresh_witness :
    SortedT exTree ∧
    ((MemT exTree "bob" → bst_insert exTree "bob" "pw" = (exTree, false)) ∧
      (¬ MemT exTree "bob" →
        bst_insert exTree "bob" "pw" = (bst_insert_spec exTree "bob" "pw", true))) :=
  ⟨by decide, c4_bst_insert_duplicate_and_fresh exTree "bob" "pw" (by decide)⟩

/-- C5: on a ScheduleList sorted by ascending release time, `schedule_post_add`
places the new node exactly at the first position whose existing node has a
strictly greater time — i.e. after all existing nodes with equal or lesser
time — and the resulting list is again sorted. -/
theorem c5_schedule_post_add_sorted_insert (l : List ScheduledPost) (sp : ScheduledPost)
    (hs : timeSorted l) :
    schedule_post_add l sp =
      l.takeWhile (fun x => x.scheduled_time ≤ sp.scheduled_time) ++
        sp :: l.dropWhile (fun x => x.scheduled_time ≤ sp.scheduled_time) ∧
    timeSorted (schedule_post_add l sp) :=
  ⟨schedule_post_add_eq l sp, timeSorted_schedule_post_add l sp hs⟩

/-- Witness for C5 at the concrete sorted list `[ex10, ex50]` with new time 30. -/
theorem c5_schedule_post_add_sorted_insert_witness :
    timeSorted [ex10, ex50] ∧
    (schedule_post_add [ex10, ex50] ex30 =
      [ex10, ex50].takeWhile (fun x => x.scheduled_time ≤ ex30.scheduled_time) ++
        ex30 :: [ex10, ex50].dropWhile (fun x => x.scheduled_time ≤ ex30.scheduled_time) ∧
      timeSorted (schedule_post_add [ex10, ex50] ex30)) :=
  ⟨by decide, c5_schedule_post_add_sorted_insert [ex10, ex50] ex30 (by decide)⟩

/-- C6: on a sorted ScheduleList, `slist_pop_due` removes and returns, in
ascending release-time order, the earliest due nodes (release time ≤ now), up
to the given bound, leaving exactly the remaining suffix of the list; when no
node is due it returns an empty sequence and mutates nothing.  Includes the
spec's worked example: after inserting times [50, 10, 30], popping with
now = 30 and bound 10 yields [10, 30] and leaves [50] pending, and popping
the remainder with now = 5 pops nothing. -/
theorem c6_slist_pop_due_spec (l : List ScheduledPost) (now : Int) (k : Nat)
    (hs : timeSorted l) :
    (slist_pop_due l now k).1 = (l.takeWhile (fun x => x.scheduled_time ≤ now)).take k ∧
    (slist_pop_due l now k).2 = l.drop (slist_pop_due l now k).1.length ∧
    timeSorted (slist_pop_due l now k).1 ∧
    (∀ x ∈ (slist_pop_due l now k).1, x.scheduled_time ≤ now) ∧
    ((∀ x ∈ l, now < x.scheduled_time) → slist_pop_due l now k = ([], l)) ∧
    slist_pop_due exList 30 10 = ([ex10, ex30], [ex50]) ∧
    slist_pop_due [ex50] 5 10 = ([], [ex50]) := by
  refine ⟨?_, ?_, ?_, ?_, ?_, by decide, by decide⟩
  · rw [slist_pop_due_eq]
  · simp [slist_pop_due_eq]
  · rw [slist_pop_due_eq]
    exact timeSorted_take (timeSorted_takeWhile _ hs) k
  · intro x hx
    simp only [slist_pop_due_eq] at hx
    have h1 := mem_of_mem_take hx
    have h2 := pred_of_mem_takeWhile h1
    simpa using h2
  · intro hall
    have htw : l.takeWhile (fun x => x.scheduled_time ≤ now) = [] := by
      cases l with
      | nil => rfl
      | cons a t =>
        simp [List.takeWhile_cons, not_le.mpr (hall a (List.mem_cons_self a t))]
    rw [slist_pop_due_eq, htw]
    simp

/-- Witness for C6 at the spec's worked example list. -/
theorem c6_slist_pop_due_spec_witness :
    timeSorted exList ∧
    ((slist_pop_due exList 30 10).1 =
        (exList.takeWhile (fun x => x.scheduled_time ≤ 30)).take 10 ∧
      (slist_pop_due exList 30 10).2 = exList.drop (slist_pop_due exList 30 10).1.length ∧
      timeSorted (slist_pop_due exList 30 10).1 ∧
      (∀ x ∈ (slist_pop_due exList 30 10).1, x.scheduled_time ≤ 30) ∧
      ((∀ x ∈ exList, (30 : Int) < x.scheduled_time) → slist_pop_due exList 30 10 = ([], exList)) ∧
      slist_pop_due exList 30 10 = ([ex10, ex30], [ex50]) ∧
      slist_pop_due [ex50] 5 10 = ([], [ex50])) :=
  ⟨by decide, c6_slist_pop_due_spec exList 30 10 (by decide)⟩

theorem graph_find_mem {l : List GraphUser} {u : String} {gu : GraphUser}
    (h : graph_find l u = some gu) : gu ∈ l ∧ gu.username = u := by
  induction l with
  | nil => simp [graph_find] at h
  | cons a t ih =>
    by_cases ha : a.username = u
    · simp only [graph_find, ha, if_true, Option.some.injEq] at h
      subst h
      exact ⟨List.mem_cons_self _ _, ha⟩
    · simp only [graph_find, ha, if_false] at h
      obtain ⟨h1, h2⟩ := ih h
      exact ⟨List.mem_cons_of_mem _ h1, h2⟩

theorem updateUser_not_found {l : List GraphUser} {u : String} {f : GraphUser → GraphUser}
    (h : graph_find l u = none) : updateUser l u f = l := by
  induction l with
  | nil => rfl
  | cons a t ih =>
    by_cases ha : a.username = u
    · simp [graph_find, ha] at h
    · simp only [graph_find, ha, if_false] at h
      simp [updateUser, ha, ih h]

theorem graph_find_updateUser {l : List GraphUser} {u x : String}
    {f : GraphUser → GraphUser} (hf : ∀ gu, (f gu).username = gu.username) :
    graph_find (updateUser l u f) x =
      if x = u then (graph_find l u).map f else graph_find l x := by
  induction l with
  | nil => simp [updateUser, graph_find]
  | cons a t ih =>
    by_cases ha : a.username = u
    · by_cases hx : x = u
      · subst hx
        simp [updateUser, graph_find, ha, hf a]
      · have hax : ¬ a.username = x := fun hh => hx (hh ▸ ha.symm ▸ rfl)
        have hax' : ¬ (f a).username = x := fun hh => hax ((hf a) ▸ hh)
        have hux : ¬ u = x := fun hh => hx hh.symm
        simp [updateUser, graph_find, ha, hx, hax, hax', hux]
    · by_cases hax : a.username = x
      · have hx : ¬ x = u := fun hh => ha (hax.symm ▸ hh ▸ rfl)
        simp [updateUser, graph_find, ha, hax, hx]
      · simp [updateUser, graph_find, ha, hax, ih]

theorem map_username_updateUser {l : List GraphUser} {u : String}
    {f : GraphUser → GraphUser} (hf : ∀ gu, (f gu).username = gu.username) :
    (updateUser l u f).map (fun gu => gu.username) =
      l.map (fun gu => gu.username) := by
  induction l with
  | nil => rfl
  | cons a t ih =>
    by_cases ha : a.username = u
    · simp [updateUser, ha, hf a]
    · simp [updateUser, ha, ih]

theorem mem_updateUser_of_find {l : List GraphUser} {u : String}
    {f : GraphUser → GraphUser} {gu₀ gu' : GraphUser}
    (hfind : graph_find l u = some gu₀) (h : gu' ∈ updateUser l u f) :
    gu' ∈ l ∨ gu' = f gu₀ := by
  induction l with
  | nil => simp [updateUser] at h
  | cons a t ih =>
    by_cases ha : a.username = u
    · simp only [graph_find, ha, if_true, Option.some.injEq] at hfind
      subst hfind
      simp only [updateUser, ha, if_true] at h
      rcases List.mem_cons.mp h with h | h
      · exact Or.inr h
      · exact Or.inl (List.mem_cons_of_mem _ h)
    · simp only [graph_find, ha, if_false] at hfind
      simp only [updateUser, ha, if_false] at h
      rcases List.mem_cons.mp h with h | h
      · exact Or.inl (h ▸ List.mem_cons_self _ _)
      · rcases ih hfind h with h | h
        · exact Or.inl (List.mem_cons_of_mem _ h)
        · exact Or.inr h

theorem adjFollowing_some {l : List GraphUser} {u : String} {gu : GraphUser}
    (h : graph_find l u = some gu) : adjFollowing l u = gu.following := by
  simp [adjFollowing, h]

theorem adjFollowers_some {l : List GraphUser} {u : String} {gu : GraphUser}
    (h : graph_find l u = some gu) : adjFollowers l u = gu.followers := by
  simp [adjFollowers, h]

theorem adjFollowing_updateUser {l : List GraphUser} {u x : String}
    {f : GraphUser → GraphUser} {gu : GraphUser}
    (hf : ∀ v, (f v).username = v.username) (hfind : graph_find l u = some gu) :
    adjFollowing (updateUser l u f) x =
      if x = u then (f gu).following else adjFollowing l x := by
  unfold adjFollowing
  rw [graph_find_updateUser hf]
  by_cases hx : x = u <;> simp [hx, hfind]

theorem adjFollowers_updateUser {l : List GraphUser} {u x : String}
    {f : GraphUser → GraphUser} {gu : GraphUser}
    (hf : ∀ v, (f v).username = v.username) (hfind : graph_find l u = some gu) :
    adjFollowers (updateUser l u f) x =
      if x = u then (f gu).followers else adjFollowers l x := by
  unfold adjFollowers
  rw [graph_find_updateUser hf]
  by_cases hx : x = u <;> simp [hx, hfind]

theorem adjFollowing_update_preserves {l : List GraphUser} {u x : String}
    {f : GraphUser → GraphUser} (hf : ∀ v, (f v).username = v.username)
    (hfl : ∀ v, (f v).following = v.following) :
    adjFollowing (updateUser l u f) x = adjFollowing l x := by
  cases hfind : graph_find l u with
  | none => rw [updateUser_not_found hfind]
  | some gu =>
    rw [adjFollowing_updateUser hf hfind]
    by_cases hx : x = u
    · subst hx
      simp [hfl gu, adjFollowing_some hfind]
    · simp [hx]

theorem adjFollowers_update_preserves {l : List GraphUser} {u x : String}
    {f : GraphUser → GraphUser} (hf : ∀ v, (f v).username = v.username)
    (hfl : ∀ v, (f v).followers = v.followers) :
    adjFollowers (updateUser l u f) x = adjFollowers l x := by
  cases hfind : graph_find l u with
  | none => rw [updateUser_not_found hfind]
  | some gu =>
    rw [adjFollowers_updateUser hf hfind]
    by_cases hx : x = u
    · subst hx
      simp [hfl gu, adjFollowers_some hfind]
    · simp [hx]

theorem adj_has_iff {l : List String} {u : String} : adj_has l u = true ↔ u ∈ l := by
  induction l with
  | nil => simp [adj_has]
  | cons h t ih =>
    by_cases hh : h = u
    · subst hh
      simp [adj_has]
    · simp [adj_has, hh, ih, Ne.symm hh]

theorem adj_remove_snd {l : List String} {u : String} :
    (adj_remove l u).2 = true ↔ u ∈ l := by
  induction l with
  | nil => simp [adj_remove]
  | cons h t ih =>
    by_cases hh : h = u
    · subst hh
      simp [adj_remove]
    · simp [adj_remove, hh, ih, Ne.symm hh]

theorem adj_remove_not_mem {l : List String} {u : String} (h : u ∉ l) :
    adj_remove l u = (l, false) := by
  induction l with
  | nil => rfl
  | cons a t ih =>
    have ha : ¬ a = u := fun hh => h (hh ▸ List.mem_cons_self _ _)
    have ht : u ∉ t := fun hh => h (List.mem_cons_of_mem _ hh)
    simp [adj_remove, ha, ih ht]

theorem mem_adj_remove_of_ne {l : List String} {u y : String} (hy : y ≠ u) :
    y ∈ (adj_remove l u).1 ↔ y ∈ l := by
  induction l with
  | nil => simp [adj_remove]
  | cons a t ih =>
    by_cases ha : a = u
    · subst ha
      simp [adj_remove, hy]
    · simp [adj_remove, ha, ih]

theorem adj_remove_sub {l : List String} {u y : String}
    (h : y ∈ (adj_remove l u).1) : y ∈ l := by
  induction l with
  | nil => simpa [adj_remove] using h
  | cons a t ih =>
    by_cases ha : a = u
    · subst ha
      exact List.mem_cons_of_mem _ (by simpa [adj_remove] using h)
    · rcases List.mem_cons.mp (by simpa [adj_remove, ha] using h) with h | h
      · exact h ▸ List.mem_cons_self _ _
      · exact List.mem_cons_of_mem _ (ih h)

theorem not_mem_adj_remove {l : List String} {u : String} (h : l.Nodup) :
    u ∉ (adj_remove l u).1 := by
  induction l with
  | nil => simp [adj_remove]
  | cons a t ih =>
    by_cases ha : a = u
    · subst ha
      intro hc
      exact (List.nodup_cons.mp h).1 (by simpa [adj_remove] using hc)
    · intro hc
      rcases List.mem_cons.mp (by simpa [adj_remove, ha] using hc) with h' | h'
      · exact ha h'.symm
      · exact ih (List.nodup_cons.mp h).2 h'

theorem adj_remove_nodup {l : List String} {u : String} (h : l.Nodup) :
    (adj_remove l u).1.Nodup := by
  induction l with
  | nil => simp [adj_remove]
  | cons a t ih =>
    obtain ⟨ha, ht⟩ := List.nodup_cons.mp h
    by_cases hau : a = u
    · subst hau
      simpa [adj_remove] using ht
    · have : a ∉ (adj_remove t u).1 := fun hc => ha (adj_remove_sub hc)
      simp only [adj_remove, hau, if_false]
      exact List.nodup_cons.mpr ⟨this, ih ht⟩

theorem mirror_of_mirrorB {g : Graph} (h : mirrorB g = true) : Mirror g := by
  unfold mirrorB at h
  rw [Bool.and_eq_true] at h
  obtain ⟨h1, h2⟩ := h
  intro a b
  constructor
  · intro hb
    cases hfind : graph_find g.head a with
    | none => simp [followingOf, adjFollowing, hfind] at hb
    | some gu =>
      obtain ⟨hmem, hname⟩ := graph_find_mem hfind
      have hb' : b ∈ gu.following := by
        simpa [followingOf, adjFollowing, hfind] using hb
      have := List.all_eq_true.mp (List.all_eq_true.mp h1 gu hmem) b hb'
      have : gu.username ∈ followersOf g b := by simpa using this
      exact hname ▸ this
  · intro ha
    cases hfind : graph_find g.head b with
    | none => simp [followersOf, adjFollowers, hfind] at ha
    | some gu =>
      obtain ⟨hmem, hname⟩ := graph_find_mem hfind
      have ha' : a ∈ gu.followers := by
        simpa [followersOf, adjFollowers, hfind] using ha
      have := List.all_eq_true.mp (List.all_eq_true.mp h2 gu hmem) a ha'
      have : gu.username ∈ followingOf g a := by simpa using this
      exact hname ▸ this

theorem graph_add_edge_eq {g : Graph} {frm tgt : String} {A B : GraphUser}
    (hA : graph_find g.head frm = some A) (hB : graph_find g.head tgt = some B)
    (hne : frm ≠ tgt) :
    graph_add_edge g frm tgt =
      ({ g with head :=
          (if adj_has B.followers frm then
            (if adj_has A.following tgt then g.head
              else updateUser g.head frm
                (fun gu => { gu with following := adj_prepend gu.following tgt }))
          else updateUser
            (if adj_has A.following tgt then g.head
              else updateUser g.head frm
                (fun gu => { gu with following := adj_prepend gu.following tgt })) tgt
            (fun gu => { gu with followers := adj_prepend gu.followers frm })) },
        true) := by
  unfold graph_add_edge
  rw [hA, hB]
  simp [hne]

theorem graph_remove_edge_eq {g : Graph} {frm tgt : String} {A B : GraphUser}
    (hA : graph_find g.head frm = some A) (hB : graph_find g.head tgt = some B) :
    graph_remove_edge g frm tgt =
      ({ g with head :=
          (updateUser
            (updateUser g.head frm
              (fun gu => { gu with following := (adj_remove A.following tgt).1 })) tgt
            (fun gu => { gu with followers := (adj_remove B.followers frm).1 })) },
        ((adj_remove A.following tgt).2 && (adj_remove B.followers frm).2)) := by
  unfold graph_remove_edge
  rw [hA, hB]

theorem graph_remove_edge_not_found {g : Graph} {frm tgt : String}
    (h : graph_find g.head frm = none ∨ graph_find g.head tgt = none) :
    graph_remove_edge g frm tgt = (g, false) := by
  unfold graph_remove_edge
  rcases h with h | h
  · rw [h]
  · rw [h]
    cases graph_find g.head frm <;> rfl

theorem graph_add_edge_followingOf {g : Graph} {frm tgt : String} {A B : GraphUser}
    (hA : graph_find g.head frm = some A) (hB : graph_find g.head tgt = some B)
    (hne : frm ≠ tgt) (x : String) :
    followingOf (graph_add_edge g frm tgt).1 x =
      if x = frm then
        (if adj_has A.following tgt then A.following else tgt :: A.following)
      else followingOf g x := by
  have hstage1 : adjFollowing
      (if adj_has A.following tgt then g.head
        else updateUser g.head frm
          (fun gu => { gu with following := adj_prepend gu.following tgt })) x =
      if x = frm then
        (if adj_has A.following tgt then A.following else tgt :: A.following)
      else adjFollowing g.head x := by
    by_cases h1 : adj_has A.following tgt = true
    · simp only [if_pos h1]
      by_cases hx : x = frm
      · subst hx
        rw [if_pos rfl]
        exact adjFollowing_some hA
      · rw [if_neg hx]
    · simp only [if_neg h1]
      rw [adjFollowing_updateUser
        (f := fun gu => { gu with following := adj_prepend gu.following tgt })
        (fun v => rfl) hA]
      by_cases hx : x = frm
      · rw [if_pos hx, if_pos hx]
        rfl
      · rw [if_neg hx, if_neg hx]
  rw [graph_add_edge_eq hA hB hne]
  show adjFollowing _ x = _
  by_cases h2 : adj_has B.followers frm = true
  · simp only [if_pos h2]
    exact hstage1
  · simp only [if_neg h2]
    rw [adjFollowing_update_preserves
      (f := fun gu => { gu with followers := adj_prepend gu.followers frm })
      (fun v => rfl) (fun v => rfl)]
    exact hstage1

theorem graph_add_edge_followersOf {g : Graph} {frm tgt : String} {A B : GraphUser}
    (hA : graph_find g.head frm = some A) (hB : graph_find g.head tgt = some B)
    (hne : frm ≠ tgt) (x : String) :
    followersOf (graph_add_edge g frm tgt).1 x =
      if x = tgt then
        (if adj_has B.followers frm then B.followers else frm :: B.followers)
      else followersOf g x := by
  have hfind1 : graph_find
      (if adj_has A.following tgt then g.head
        else updateUser g.head frm
          (fun gu => { gu with following := adj_prepend gu.following tgt })) tgt =
      some B := by
    by_cases h1 : adj_has A.following tgt = true
    · simp only [if_pos h1]
      exact hB
    · simp only [if_neg h1]
      rw [graph_find_updateUser
        (f := fun gu => { gu with following := adj_prepend gu.following tgt })
        (fun v => rfl)]
      rw [if_neg (Ne.symm hne)]
      exact hB
  have hkeep : adjFollowers
      (if adj_has A.following tgt then g.head
        else updateUser g.head frm
          (fun gu => { gu with following := adj_prepend gu.following tgt })) x =
      adjFollowers g.head x := by
    by_cases h1 : adj_has A.following tgt = true
    · simp only [if_pos h1]
    · simp only [if_neg h1]
      exact adjFollowers_update_preserves
        (f := fun gu => { gu with following := adj_prepend gu.following tgt })
        (fun v => rfl) (fun v => rfl)
  rw [graph_add_edge_eq hA hB hne]
  show adjFollowers _ x = _
  by_cases h2 : adj_has B.followers frm = true
  · simp only [if_pos h2]
    rw [hkeep]
    by_cases hx : x = tgt
    · subst hx
      rw [if_pos rfl]
      exact adjFollowers_some hB
    · rw [if_neg hx]
      rfl
  · simp only [if_neg h2]
    rw [adjFollowers_updateUser
      (f := fun gu => { gu with followers := adj_prepend gu.followers frm })
      (fun v => rfl) hfind1]
    by_cases hx : x = tgt
    · rw [if_pos hx, if_pos hx]
      rfl
    · rw [if_neg hx, if_neg hx]
      exact hkeep

theorem graph_remove_edge_followingOf {g : Graph} {frm tgt : String} {A B : GraphUser}
    (hA : graph_find g.head frm = some A) (hB : graph_find g.head tgt = some B)
    (x : String) :
    followingOf (graph_remove_edge g frm tgt).1 x =
      if x = frm then (adj_remove A.following tgt).1 else followingOf g x := by
  rw [graph_remove_edge_eq hA hB]
  show adjFollowing _ x = _
  rw [adjFollowing_update_preserves
    (f := fun gu => { gu with followers := (adj_remove B.followers frm).1 })
    (fun v => rfl) (fun v => rfl)]
  rw [adjFollowing_updateUser
    (f := fun gu => { gu with following := (adj_remove A.following tgt).1 })
    (fun v => rfl) hA]
  by_cases hx : x = frm
  · rw [if_pos hx, if_pos hx]
  · rw [if_neg hx, if_neg hx]
    rfl

theorem graph_remove_edge_followersOf {g : Graph} {frm tgt : String} {A B : GraphUser}
    (hA : graph_find g.head frm = some A) (hB : graph_find g.head tgt = some B)
    (x : String) :
    followersOf (graph_remove_edge g frm tgt).1 x =
      if x = tgt then (adj_remove B.followers frm).1 else followersOf g x := by
  rw [graph_remove_edge_eq hA hB]
  show adjFollowers _ x = _
  by_cases htf : tgt = frm
  · subst htf
    have hAB : A = B := by
      rw [hA] at hB
      exact Option.some.inj hB
    subst hAB
    have hfind1 : graph_find
        (updateUser g.head tgt
          (fun gu => { gu with following := (adj_remove A.following tgt).1 })) tgt =
        some { A with following := (adj_remove A.following tgt).1 } := by
      rw [graph_find_updateUser
        (f := fun gu => { gu with following := (adj_remove A.following tgt).1 })
        (fun v => rfl)]
      rw [if_pos rfl, hA]
      rfl
    rw [adjFollowers_updateUser
      (f := fun gu => { gu with followers := (adj_remove A.followers tgt).1 })
      (fun v => rfl) hfind1]
    by_cases hx : x = tgt
    · rw [if_pos hx, if_pos hx]
    · rw [if_neg hx, if_neg hx]
      exact adjFollowers_update_preserves
        (f := fun gu => { gu with following := (adj_remove A.following tgt).1 })
        (fun v => rfl) (fun v => rfl)
  · have hfind1 : graph_find
        (updateUser g.head frm
          (fun gu => { gu with following := (adj_remove A.following tgt).1 })) tgt =
        some B := by
      rw [graph_find_updateUser
        (f := fun gu => { gu with following := (adj_remove A.following tgt).1 })
        (fun v => rfl)]
      rw [if_neg htf]
      exact hB
    rw [adjFollowers_updateUser
      (f := fun gu => { gu with followers := (adj_remove B.followers frm).1 })
      (fun v => rfl) hfind1]
    by_cases hx : x = tgt
    · rw [if_pos hx, if_pos hx]
    · rw [if_neg hx, if_neg hx]
      exact adjFollowers_update_preserves
        (f := fun gu => { gu with following := (adj_remove A.following tgt).1 })
        (fun v => rfl) (fun v => rfl)

theorem followingOf_some {g : Graph} {u : String} {gu : GraphUser}
    (h : graph_find g.head u = some gu) : followingOf g u = gu.following :=
  adjFollowing_some h

theorem followersOf_some {g : Graph} {u : String} {gu : GraphUser}
    (h : graph_find g.head u = some gu) : followersOf g u = gu.followers :=
  adjFollowers_some h

theorem mem_addIf {F : List String} {tgt y : String} :
    y ∈ (if adj_has F tgt then F else tgt :: F) ↔ (y = tgt ∨ y ∈ F) := by
  by_cases h : adj_has F tgt = true
  · rw [if_pos h]
    constructor
    · exact Or.inr
    · rintro (rfl | hy)
      · exact adj_has_iff.mp h
      · exact hy
  · rw [if_neg h]
    exact List.mem_cons

theorem graph_find_stage1 {g : Graph} {frm tgt : String} {A B : GraphUser}
    (hA : graph_find g.head frm = some A) (hB : graph_find g.head tgt = some B)
    (hne : frm ≠ tgt) :
    graph_find
      (if adj_has A.following tgt then g.head
        else updateUser g.head frm
          (fun gu => { gu with following := adj_prepend gu.following tgt })) tgt =
      some B := by
  by_cases h1 : adj_has A.following tgt = true
  · simp only [if_pos h1]
    exact hB
  · simp only [if_neg h1]
    rw [graph_find_updateUser
      (f := fun gu => { gu with following := adj_prepend gu.following tgt })
      (fun v => rfl)]
    rw [if_neg (Ne.symm hne)]
    exact hB

theorem wf_preserved_updateUser {l : List GraphUser} {u : String}
    {f : GraphUser → GraphUser} (hf : ∀ v, (f v).username = v.username)
    (hnodup : (l.map (fun gu => gu.username)).Nodup)
    (hall : ∀ gu ∈ l, gu.following.Nodup ∧ gu.followers.Nodup)
    {gu₀ : GraphUser} (hfind : graph_find l u = some gu₀)
    (hf0 : (f gu₀).following.Nodup ∧ (f gu₀).followers.Nodup) :
    ((updateUser l u f).map (fun gu => gu.username)).Nodup ∧
    ∀ gu ∈ updateUser l u f, gu.following.Nodup ∧ gu.followers.Nodup := by
  refine ⟨by rw [map_username_updateUser hf]; exact hnodup, ?_⟩
  intro gu' hgu'
  rcases mem_updateUser_of_find hfind hgu' with h | h
  · exact hall _ h
  · exact h ▸ hf0

theorem mirror_graph_add_edge {g : Graph} {frm tgt : String} {A B : GraphUser}
    (hm : Mirror g) (hA : graph_find g.head frm = some A)
    (hB : graph_find g.head tgt = some B) (hne : frm ≠ tgt) :
    Mirror (graph_add_edge g frm tgt).1 := by
  have hFA : followingOf g frm = A.following := followingOf_some hA
  have hWB : followersOf g tgt = B.followers := followersOf_some hB
  intro a b
  rw [graph_add_edge_followingOf hA hB hne, graph_add_edge_followersOf hA hB hne]
  by_cases ha : a = frm
  · rw [ha, if_pos rfl, mem_addIf]
    by_cases hb : b = tgt
    · rw [hb, if_pos rfl, mem_addIf]
      simp
    · rw [if_neg hb]
      constructor
      · rintro (rfl | hbf)
        · exact absurd rfl hb
        · exact (hm frm b).mp (by rw [hFA]; exact hbf)
      · intro hfb
        refine Or.inr ?_
        have := (hm frm b).mpr hfb
        rwa [hFA] at this
  · rw [if_neg ha]
    by_cases hb : b = tgt
    · rw [hb, if_pos rfl, mem_addIf]
      constructor
      · intro hbf
        refine Or.inr ?_
        have := (hm a tgt).mp hbf
        rwa [hWB] at this
      · rintro (rfl | haw)
        · exact absurd rfl ha
        · exact (hm a tgt).mpr (by rw [hWB]; exact haw)
    · rw [if_neg hb]
      exact hm a b

theorem wf_graph_add_edge {g : Graph} {frm tgt : String} {A B : GraphUser}
    (hwf : GraphWf g) (hA : graph_find g.head frm = some A)
    (hB : graph_find g.head tgt = some B) (hne : frm ≠ tgt) :
    GraphWf (graph_add_edge g frm tgt).1 := by
  obtain ⟨hnd, hall⟩ := hwf
  have hAnd := hall _ (graph_find_mem hA).1
  have hBnd := hall _ (graph_find_mem hB).1
  have hstage1 :
      (((if adj_has A.following tgt then g.head
          else updateUser g.head frm
            (fun gu => { gu with following := adj_prepend gu.following tgt })).map
        (fun gu => gu.username)).Nodup) ∧
      ∀ gu ∈ (if adj_has A.following tgt then g.head
          else updateUser g.head frm
            (fun gu => { gu with following := adj_prepend gu.following tgt })),
        gu.following.Nodup ∧ gu.followers.Nodup := by
    by_cases h1 : adj_has A.following tgt = true
    · simp only [if_pos h1]
      exact ⟨hnd, hall⟩
    · simp only [if_neg h1]
      refine wf_preserved_updateUser
        (f := fun gu => { gu with following := adj_prepend gu.following tgt })
        (fun v => rfl) hnd hall hA ⟨?_, hAnd.2⟩
      exact List.nodup_cons.mpr ⟨fun hc => h1 (adj_has_iff.mpr hc), hAnd.1⟩
  have hfind1 := graph_find_stage1 hA hB hne
  rw [graph_add_edge_eq hA hB hne]
  by_cases h2 : adj_has B.followers frm = true
  · simp only [if_pos h2]
    exact ⟨hstage1.1, hstage1.2⟩
  · simp only [if_neg h2]
    have hstage2 := wf_preserved_updateUser
      (f := fun gu => { gu with followers := adj_prepend gu.followers frm })
      (fun v => rfl) hstage1.1 hstage1.2 hfind1
      ⟨hBnd.1, List.nodup_cons.mpr ⟨fun hc => h2 (adj_has_iff.mpr hc), hBnd.2⟩⟩
    exact ⟨hstage2.1, hstage2.2⟩

theorem mirror_graph_remove_edge {g : Graph} {frm tgt : String} {A B : GraphUser}
    (hwf : GraphWf g) (hm : Mirror g) (hA : graph_find g.head frm = some A)
    (hB : graph_find g.head tgt = some B) :
    Mirror (graph_remove_edge g frm tgt).1 := by
  have hAnd := (hwf.2 _ (graph_find_mem hA).1).1
  have hBnd := (hwf.2 _ (graph_find_mem hB).1).2
  have hFA : followingOf g frm = A.following := followingOf_some hA
  have hWB : followersOf g tgt = B.followers := followersOf_some hB
  intro a b
  rw [graph_remove_edge_followingOf hA hB, graph_remove_edge_followersOf hA hB]
  by_cases ha : a = frm
  · rw [ha, if_pos rfl]
    by_cases hb : b = tgt
    · rw [hb, if_pos rfl]
      exact iff_of_false (not_mem_adj_remove hAnd) (not_mem_adj_remove hBnd)
    · rw [if_neg hb, mem_adj_remove_of_ne hb, ← hFA]
      exact hm frm b
  · rw [if_neg ha]
    by_cases hb : b = tgt
    · rw [hb, if_pos rfl, mem_adj_remove_of_ne ha, ← hWB]
      exact hm a tgt
    · rw [if_neg hb]
      exact hm a b

theorem wf_graph_remove_edge {g : Graph} {frm tgt : String} {A B : GraphUser}
    (hwf : GraphWf g) (hA : graph_find g.head frm = some A)
    (hB : graph_find g.head tgt = some B) :
    GraphWf (graph_remove_edge g frm tgt).1 := by
  obtain ⟨hnd, hall⟩ := hwf
  have hAnd := hall _ (graph_find_mem hA).1
  have hBnd := hall _ (graph_find_mem hB).1
  have hstage1 := wf_preserved_updateUser
    (f := fun gu => { gu with following := (adj_remove A.following tgt).1 })
    (fun v => rfl) hnd hall hA ⟨adj_remove_nodup hAnd.1, hAnd.2⟩
  rw [graph_remove_edge_eq hA hB]
  by_cases htf : tgt = frm
  · subst htf
    have hAB : A = B := by
      rw [hA] at hB
      exact Option.some.inj hB
    subst hAB
    have hfind1 : graph_find
        (updateUser g.head tgt
          (fun gu => { gu with following := (adj_remove A.following tgt).1 })) tgt =
        some { A with following := (adj_remove A.following tgt).1 } := by
      rw [graph_find_updateUser
        (f := fun gu => { gu with following := (adj_remove A.following tgt).1 })
        (fun v => rfl)]
      rw [if_pos rfl, hA]
      rfl
    have hstage2 := wf_preserved_updateUser
      (f := fun gu => { gu with followers := (adj_remove A.followers tgt).1 })
      (fun v => rfl) hstage1.1 hstage1.2 hfind1
      ⟨adj_remove_nodup hAnd.1, adj_remove_nodup hAnd.2⟩
    exact ⟨hstage2.1, hstage2.2⟩
  · have hfind1 : graph_find
        (updateUser g.head frm
          (fun gu => { gu with following := (adj_remove A.following tgt).1 })) tgt =
        some B := by
      rw [graph_find_updateUser
        (f := fun gu => { gu with following := (adj_remove A.following tgt).1 })
        (fun v => rfl)]
      rw [if_neg htf]
      exact hB
    have hstage2 := wf_preserved_updateUser
      (f := fun gu => { gu with followers := (adj_remove B.followers frm).1 })
      (fun v => rfl) hstage1.1 hstage1.2 hfind1
      ⟨hBnd.1, adj_remove_nodup hBnd.2⟩
    exact ⟨hstage2.1, hstage2.2⟩

/-- C8: on a well-formed FollowGraph whose lists satisfy the mirror
invariant, a successful `graph_add_edge` (both endpoints present, no
self-follow) and any `graph_remove_edge` preserve the mirror invariant and
well-formedness; a duplicate edge is absorbed — `graph_add_edge` on an
already-present edge succeeds but leaves the graph unchanged, never
double-counting. -/
theorem c8_graph_mirror_invariant (g : Graph) (frm tgt : String)
    (hwf : GraphWf g) (hm : Mirror g) :
    (((graph_find g.head frm).isSome = true → (graph_find g.head tgt).isSome = true →
      frm ≠ tgt →
      (graph_add_edge g frm tgt).2 = true ∧
      Mirror (graph_add_edge g frm tgt).1 ∧
      GraphWf (graph_add_edge g frm tgt).1 ∧
      (tgt ∈ followingOf g frm → (graph_add_edge g frm tgt).1 = g)) ∧
    Mirror (graph_remove_edge g frm tgt).1 ∧
    GraphWf (graph_remove_edge g frm tgt).1) := by
  refine ⟨?_, ?_⟩
  · intro hf ht hne
    obtain ⟨A, hA⟩ := Option.isSome_iff_exists.mp hf
    obtain ⟨B, hB⟩ := Option.isSome_iff_exists.mp ht
    refine ⟨?_, mirror_graph_add_edge hm hA hB hne, wf_graph_add_edge hwf hA hB hne, ?_⟩
    · rw [graph_add_edge_eq hA hB hne]
    · intro hdup
      have h1 : adj_has A.following tgt = true :=
        adj_has_iff.mpr (by rwa [followingOf_some hA] at hdup)
      have h2 : adj_has B.followers frm = true := adj_has_iff.mpr (by
        have := (hm frm tgt).mp hdup
        rwa [followersOf_some hB] at this)
      rw [graph_add_edge_eq hA hB hne]
      simp only [if_pos h1, if_pos h2]
  · cases hf : graph_find g.head frm with
    | none =>
      rw [graph_remove_edge_not_found (Or.inl hf)]
      exact ⟨hm, ⟨hwf.1, hwf.2⟩⟩
    | some A =>
      cases ht : graph_find g.head tgt with
      | none =>
        rw [graph_remove_edge_not_found (Or.inr ht)]
        exact ⟨hm, ⟨hwf.1, hwf.2⟩⟩
      | some B =>
        exact ⟨mirror_graph_remove_edge hwf hm hf ht, wf_graph_remove_edge hwf hf ht⟩

/-- Witness for C8 at the concrete mirrored graph `exGraph` (alice→bob). -/
theorem c8_graph_mirror_invariant_witness :
    GraphWf exGraph ∧
    ((((graph_find exGraph.head "alice").isSome = true →
        (graph_find exGraph.head "bob").isSome = true → "alice" ≠ "bob" →
        (graph_add_edge exGraph "alice" "bob").2 = true ∧
        Mirror (graph_add_edge exGraph "alice" "bob").1 ∧
        GraphWf (graph_add_edge exGraph "alice" "bob").1 ∧
        ("bob" ∈ followingOf exGraph "alice" →
          (graph_add_edge exGraph "alice" "bob").1 = exGraph)) ∧
      Mirror (graph_remove_edge exGraph "alice" "bob").1 ∧
      GraphWf (graph_remove_edge exGraph "alice" "bob").1)) :=
  ⟨by decide,
    c8_graph_mirror_invariant exGraph "alice" "bob" (by decide)
      (mirror_of_mirrorB (by decide))⟩

/-- C9: with both endpoints present in the graph, `graph_remove_edge`
reports success iff BOTH the entry `tgt` in `frm`'s following list AND the
entry `frm` in `tgt`'s followers list were found (strict AND); an edge
present on one side only is reported as failure. -/
theorem c9_graph_remove_edge_strict_and (g : Graph) (frm tgt : String)
    (hf : (graph_find g.head frm).isSome = true)
    (ht : (graph_find g.head tgt).isSome = true) :
    ((graph_remove_edge g frm tgt).2 = true ↔
      tgt ∈ followingOf g frm ∧ frm ∈ followersOf g tgt) := by
  obtain ⟨A, hA⟩ := Option.isSome_iff_exists.mp hf
  obtain ⟨B, hB⟩ := Option.isSome_iff_exists.mp ht
  rw [graph_remove_edge_eq hA hB]
  show ((adj_remove A.following tgt).2 && (adj_remove B.followers frm).2) = true ↔ _
  rw [Bool.and_eq_true, followingOf_some hA, followersOf_some hB]
  exact and_congr adj_remove_snd adj_remove_snd

/-- Witness for C9 at `exGraph` (edge present on both sides). -/
theorem c9_graph_remove_edge_strict_and_witness :
    (graph_find exGraph.head "alice").isSome = true ∧
    (graph_find exGraph.head "bob").isSome = true ∧
    ((graph_remove_edge exGraph "alice" "bob").2 = true ↔
      "bob" ∈ followingOf exGraph "alice" ∧ "alice" ∈ followersOf exGraph "bob") :=
  ⟨by decide, by decide,
    c9_graph_remove_edge_strict_and exGraph "alice" "bob" (by decide) (by decide)⟩

/-- C10: when the edge entry exists on exactly one side, `graph_remove_edge`
removes that one entry, leaves the other list unchanged, and reports
failure — the partial removal is left applied, not rolled back. -/
theorem c10_graph_remove_edge_partial (g : Graph) (frm tgt : String)
    (hwf : GraphWf g)
    (hf : (graph_find g.head frm).isSome = true)
    (ht : (graph_find g.head tgt).isSome = true) :
    ((tgt ∈ followingOf g frm → frm ∉ followersOf g tgt →
      (graph_remove_edge g frm tgt).2 = false ∧
      tgt ∉ followingOf (graph_remove_edge g frm tgt).1 frm ∧
      followersOf (graph_remove_edge g frm tgt).1 tgt = followersOf g tgt) ∧
    (tgt ∉ followingOf g frm → frm ∈ followersOf g tgt →
      (graph_remove_edge g frm tgt).2 = false ∧
      frm ∉ followersOf (graph_remove_edge g frm tgt).1 tgt ∧
      followingOf (graph_remove_edge g frm tgt).1 frm = followingOf g frm)) := by
  obtain ⟨A, hA⟩ := Option.isSome_iff_exists.mp hf
  obtain ⟨B, hB⟩ := Option.isSome_iff_exists.mp ht
  have hAnd := (hwf.2 _ (graph_find_mem hA).1).1
  have hBnd := (hwf.2 _ (graph_find_mem hB).1).2
  constructor
  · intro hmem hnot
    have hW : frm ∉ B.followers := by rwa [followersOf_some hB] at hnot
    have hr2 : adj_remove B.followers frm = (B.followers, false) := adj_remove_not_mem hW
    refine ⟨?_, ?_, ?_⟩
    · rw [graph_remove_edge_eq hA hB]
      show ((adj_remove A.following tgt).2 && (adj_remove B.followers frm).2) = false
      rw [hr2]
      simp
    · rw [graph_remove_edge_followingOf hA hB, if_pos rfl]
      exact not_mem_adj_remove hAnd
    · rw [graph_remove_edge_followersOf hA hB, if_pos rfl, hr2, followersOf_some hB]
  · intro hnot hmem
    have hF : tgt ∉ A.following := by rwa [followingOf_some hA] at hnot
    have hr1 : adj_remove A.following tgt = (A.following, false) := adj_remove_not_mem hF
    refine ⟨?_, ?_, ?_⟩
    · rw [graph_remove_edge_eq hA hB]
      show ((adj_remove A.following tgt).2 && (adj_remove B.followers frm).2) = false
      rw [hr1]
      simp
    · rw [graph_remove_edge_followersOf hA hB, if_pos rfl]
      exact not_mem_adj_remove hBnd
    · rw [graph_remove_edge_followingOf hA hB, if_pos rfl, hr1, followingOf_some hA]

/-- Witness for C10 at the one-sided graph `exGraphOneSided` (the edge
alice→bob is present only in alice's following list). -/
theorem c10_graph_remove_edge_partial_witness :
    GraphWf exGraphOneSided ∧
    ((("bob" ∈ followingOf exGraphOneSided "alice" →
        "alice" ∉ followersOf exGraphOneSided "bob" →
        (graph_remove_edge exGraphOneSided "alice" "bob").2 = false ∧
        "bob" ∉ followingOf (graph_remove_edge exGraphOneSided "alice" "bob").1 "alice" ∧
        followersOf (graph_remove_edge exGraphOneSided "alice" "bob").1 "bob" =
          followersOf exGraphOneSided "bob") ∧
      ("bob" ∉ followingOf exGraphOneSided "alice" →
        "alice" ∈ followersOf exGraphOneSided "bob" →
        (graph_remove_edge exGraphOneSided "alice" "bob").2 = false ∧
        "alice" ∉ followersOf (graph_remove_edge exGraphOneSided "alice" "bob").1 "bob" ∧
        followingOf (graph_remove_edge exGraphOneSided "alice" "bob").1 "alice" =
          followingOf exGraphOneSided "alice"))) :=
  ⟨by decide,
    c10_graph_remove_edge_partial exGraphOneSided "alice" "bob"
      (by decide) (by decide) (by decide)⟩

theorem getD_set_ne {α : Type} (l : List α) {i j : Nat} (m d : α) (h : i ≠ j) :
    (l.set i m).getD j d = l.getD j d := by
  induction l generalizing i j with
  | nil => rfl
  | cons a t ih =>
    cases i with
    | zero =>
      cases j with
      | zero => exact absurd rfl h
      | succ j' => rfl
    | succ i' =>
      cases j with
      | zero => rfl
      | succ j' => exact ih (fun hh => h (by rw [hh]))

theorem getD_set_eq {α : Type} (l : List α) {i : Nat} (m d : α) (h : i < l.length) :
    (l.set i m).getD i d = m := by
  induction l generalizing i with
  | nil => simp at h
  | cons a t ih =>
    cases i with
    | zero => rfl
    | succ i' =>
      show (t.set i' m).getD i' d = m
      exact ih (by simpa using h)

theorem idx_mod_ne {C head i count : Nat} (hi : i < count) (hc : count < C) :
    (head + i) % C ≠ (head + count) % C := by
  intro heq
  have h2 : i ≡ count [MOD C] :=
    Nat.ModEq.add_left_cancel (Nat.ModEq.refl head) heq
  have h3 : i = count := by
    have hi' : i % C = i := Nat.mod_eq_of_lt (lt_trans hi hc)
    have hc' : count % C = count := Nat.mod_eq_of_lt hc
    unfold Nat.ModEq at h2
    rw [hi', hc'] at h2
    exact h2
  omega

theorem mq_enqueue_fail_iff (C : Nat) (q : CQueue) (m : Message) :
    (mq_enqueue C q m).2 = false ↔ q.count = C := by
  by_cases h : q.count = C <;> simp [mq_enqueue, h]

theorem mq_dequeue_fail_iff (C : Nat) (q : CQueue) :
    (mq_dequeue C q).2 = none ↔ q.count = 0 := by
  by_cases h : q.count = 0 <;> simp [mq_dequeue, h]

theorem mq_enqueue_success {C : Nat} {q : CQueue} {m : Message}
    (hwf : CQWf C q) (h : q.count ≠ C) :
    CQWf C (mq_enqueue C q m).1 ∧
    mq_contents C (mq_enqueue C q m).1 = mq_contents C q ++ [m] := by
  obtain ⟨hC, hlen, hhead, hcount, htail⟩ := hwf
  have hlt : q.count < C := lt_of_le_of_ne hcount h
  have henq : (mq_enqueue C q m).1 =
      { buf := q.buf.set q.tail m, head := q.head,
        tail := (q.tail + 1) % C, count := q.count + 1 } := by
    simp [mq_enqueue, h]
  rw [henq]
  constructor
  · refine ⟨hC, ?_, hhead, ?_, ?_⟩
    · simpa using hlen
    · show q.count + 1 ≤ C
      omega
    · show (q.tail + 1) % C = (q.head + (q.count + 1)) % C
      rw [htail, Nat.mod_add_mod]
      congr 1 <;> omega
  · show (List.range (q.count + 1)).map _ = _
    rw [List.range_succ, List.map_append]
    congr 1
    · apply List.map_congr_left
      intro i hi
      have hi' : i < q.count := List.mem_range.mp hi
      show (q.buf.set q.tail m).getD ((q.head + i) % C) mdefault =
        q.buf.getD ((q.head + i) % C) mdefault
      refine getD_set_ne q.buf m mdefault ?_
      rw [htail]
      exact (idx_mod_ne hi' hlt).symm
    · show [(q.buf.set q.tail m).getD ((q.head + q.count) % C) mdefault] = [m]
      rw [← htail]
      congr 1
      refine getD_set_eq q.buf m mdefault ?_
      rw [hlen, htail]
      exact Nat.mod_lt _ hC

theorem mq_dequeue_success {C : Nat} {q : CQueue}
    (hwf : CQWf C q) (h : q.count ≠ 0) :
    CQWf C (mq_dequeue C q).1 ∧
    (mq_dequeue C q).2 = (mq_contents C q).head? ∧
    mq_contents C (mq_dequeue C q).1 = (mq_contents C q).tail := by
  obtain ⟨hC, hlen, hhead, hcount, htail⟩ := hwf
  have hdq1 : (mq_dequeue C q).1 =
      { q with head := (q.head + 1) % C, count := q.count - 1 } := by
    simp [mq_dequeue, h]
  have hdq2 : (mq_dequeue C q).2 = some (q.buf.getD q.head mdefault) := by
    simp [mq_dequeue, h]
  obtain ⟨k, hk⟩ : ∃ k, q.count = k + 1 := ⟨q.count - 1, by omega⟩
  have hcontents : mq_contents C q =
      q.buf.getD q.head mdefault ::
        (List.range k).map (fun i => q.buf.getD ((q.head + (i + 1)) % C) mdefault) := by
    unfold mq_contents
    rw [hk, List.range_succ_eq_map, List.map_cons, List.map_map]
    congr 1
    simp [Nat.mod_eq_of_lt hhead]
  refine ⟨?_, ?_, ?_⟩
  · rw [hdq1]
    refine ⟨hC, hlen, ?_, ?_, ?_⟩
    · exact Nat.mod_lt _ hC
    · show q.count - 1 ≤ C
      omega
    · show q.tail = ((q.head + 1) % C + (q.count - 1)) % C
      rw [Nat.mod_add_mod, htail]
      congr 1 <;> omega
  · rw [hdq2, hcontents]
    rfl
  · rw [hdq1, hcontents]
    show (List.range (q.count - 1)).map _ = _
    simp only [hk, Nat.add_sub_cancel, List.tail_cons]
    apply List.map_congr_left
    intro i hi
    show q.buf.getD (((q.head + 1) % C + i) % C) mdefault =
      q.buf.getD ((q.head + (i + 1)) % C) mdefault
    rw [Nat.mod_add_mod]
    congr 2
    omega

/-- C7: for the fixed-capacity circular MessageQueue of capacity C, enqueue
fails exactly when count = C and otherwise appends the message at the back
(preserving the representation invariant); dequeue fails exactly when
count = 0 and otherwise removes and returns the oldest message (FIFO);
includes the spec's C = 2 scenario: enqueue A, enqueue B succeed, enqueue C
fails, dequeue returns A, enqueue C then succeeds, and subsequent dequeues
return B, then C, then report empty. -/
theorem c7_mq_circular_fifo (C : Nat) (q : CQueue) (m : Message)
    (hwf : CQWf C q) :
    ((mq_enqueue C q m).2 = false ↔ q.count = C) ∧
    (q.count ≠ C →
      CQWf C (mq_enqueue C q m).1 ∧
      mq_contents C (mq_enqueue C q m).1 = mq_contents C q ++ [m]) ∧
    ((mq_dequeue C q).2 = none ↔ q.count = 0) ∧
    (q.count ≠ 0 →
      CQWf C (mq_dequeue C q).1 ∧
      (mq_dequeue C q).2 = (mq_contents C q).head? ∧
      mq_contents C (mq_dequeue C q).1 = (mq_contents C q).tail) ∧
    ((mq_enqueue 2 mq2 msgA).2 = true ∧
      (mq_enqueue 2 mqS1 msgB).2 = true ∧
      (mq_enqueue 2 mqS2 msgC).2 = false ∧ mqS3 = mqS2 ∧
      (mq_dequeue 2 mqS3).2 = some msgA ∧
      (mq_enqueue 2 mqS4 msgC).2 = true ∧
      (mq_dequeue 2 mqS5).2 = some msgB ∧
      (mq_dequeue 2 mqS6).2 = some msgC ∧
      (mq_dequeue 2 mqS7).2 = none) :=
  ⟨mq_enqueue_fail_iff C q m,
    fun h => mq_enqueue_success hwf h,
    mq_dequeue_fail_iff C q,
    fun h => mq_dequeue_success hwf h,
    by decide⟩

/-- Witness for C7 at the concrete one-element capacity-2 queue `mqS1`. -/
theorem c7_mq_circular_fifo_witness :
    CQWf 2 mqS1 ∧
    (((mq_enqueue 2 mqS1 msgB).2 = false ↔ mqS1.count = 2) ∧
    (mqS1.count ≠ 2 →
      CQWf 2 (mq_enqueue 2 mqS1 msgB).1 ∧
      mq_contents 2 (mq_enqueue 2 mqS1 msgB).1 = mq_contents 2 mqS1 ++ [msgB]) ∧
    ((mq_dequeue 2 mqS1).2 = none ↔ mqS1.count = 0) ∧
    (mqS1.count ≠ 0 →
      CQWf 2 (mq_dequeue 2 mqS1).1 ∧
      (mq_dequeue 2 mqS1).2 = (mq_contents 2 mqS1).head? ∧
      mq_contents 2 (mq_dequeue 2 mqS1).1 = (mq_contents 2 mqS1).tail) ∧
    ((mq_enqueue 2 mq2 msgA).2 = true ∧
      (mq_enqueue 2 mqS1 msgB).2 = true ∧
      (mq_enqueue 2 mqS2 msgC).2 = false ∧ mqS3 = mqS2 ∧
      (mq_dequeue 2 mqS3).2 = some msgA ∧
      (mq_enqueue 2 mqS4 msgC).2 = true ∧
      (mq_dequeue 2 mqS5).2 = some msgB ∧
      (mq_dequeue 2 mqS6).2 = some msgC ∧
      (mq_dequeue 2 mqS7).2 = none)) :=
  ⟨by decide, c7_mq_circular_fifo 2 mqS1 msgB (by decide)⟩

/-- C1 — the code violates the claim (counter/list-length invariant): after
registering alice and bob, logging in as alice and following bob twice,
both `graph_add_edge` calls report success (the second absorbs the
duplicate edge without adding anything) yet `ui_follow` increments the
counters both times, so alice's `following` counter is 2 while her graph
following list has length 1 (and bob's `followers` counter is 2 while his
followers list has length 1). -/
theorem c1_follow_counter_bug :
    exApp2.2 = true ∧ exApp3.2 = true ∧
    (bst_find exApp3.1.users_bst "alice").map (fun usr => usr.following) = some 2 ∧
    (followingOf exApp3.1.graph "alice").length = 1 ∧
    (bst_find exApp3.1.users_bst "bob").map (fun usr => usr.followers) = some 2 ∧
    (followersOf exApp3.1.graph "bob").length = 1 := by decide

theorem push_post_array_data (pa : PostArray2) (p : Post) :
    (push_post_array pa p).data = pa.data ++ [p] := by
  unfold push_post_array
  by_cases h0 : pa.capacity = 0
  · simp only [if_pos h0]
    by_cases h1 : pa.data.length ≥ INITIAL_POST_CAP <;> simp [h1]
  · simp only [if_neg h0]
    by_cases h1 : pa.data.length ≥ pa.capacity <;> simp [h1]

theorem publish_many_spec (now : Int) :
    ∀ (l : List ScheduledPost) (ctr : Nat) (pa : PostArray2),
      (∀ sp ∈ l, validate_content sp.content = true) →
      (publish_many ctr pa l now).1 = ctr + l.length ∧
      (publish_many ctr pa l now).2.data = pa.data ++ publish_out ctr l now := by
  intro l
  induction l with
  | nil =>
    intro ctr pa _
    simp [publish_many, publish_out]
  | cons sp t ih =>
    intro ctr pa hv
    have hsp : validate_content sp.content = true := hv sp (List.mem_cons_self _ _)
    have ht : ∀ x ∈ t, validate_content x.content = true :=
      fun x hx => hv x (List.mem_cons_of_mem _ hx)
    obtain ⟨ih1, ih2⟩ := ih (ctr + 1) (push_post_array pa ⟨ctr, sp.author, sp.content, now⟩) ht
    have hunfold : publish_many ctr pa (sp :: t) now =
        publish_many (ctr + 1) (push_post_array pa ⟨ctr, sp.author, sp.content, now⟩) t now := by
      have hpub : publish_post ctr pa sp.author sp.content now =
          (ctr + 1, push_post_array pa ⟨ctr, sp.author, sp.content, now⟩, true) := by
        simp [publish_post, hsp]
      show publish_many (publish_post ctr pa sp.author sp.content now).1
          (publish_post ctr pa sp.author sp.content now).2.1 t now = _
      rw [hpub]
    rw [hunfold]
    refine ⟨by rw [ih1]; show ctr + 1 + t.length = ctr + (sp :: t).length; simp; omega, ?_⟩
    rw [ih2, push_post_array_data]
    show (pa.data ++ [(⟨ctr, sp.author, sp.content, now⟩ : Post)]) ++
        publish_out (ctr + 1) t now = pa.data ++ publish_out ctr (sp :: t) now
    simp [publish_out]

theorem mem_slist_pop_due {l : List ScheduledPost} {now : Int} {k : Nat}
    {x : ScheduledPost} (hx : x ∈ (slist_pop_due l now k).1) : x ∈ l := by
  simp only [slist_pop_due_eq] at hx
  exact mem_of_mem_takeWhile (mem_of_mem_take hx)

theorem publish_out_forall₂ (now : Int) :
    ∀ (l : List ScheduledPost) (ctr : Nat), (∀ sp ∈ l, sp.id < ctr) →
      List.Forall₂ (fun (sp : ScheduledPost) (p : Post) =>
        sp.id ≠ p.id ∧ p.author = sp.author ∧ p.content = sp.content)
        l (publish_out ctr l now) := by
  intro l
  induction l with
  | nil =>
    intro ctr _
    exact List.Forall₂.nil
  | cons sp t ih =>
    intro ctr h
    refine List.Forall₂.cons ⟨?_, rfl, rfl⟩ (ih (ctr + 1) ?_)
    · exact ne_of_lt (h sp (List.mem_cons_self _ _))
    · intro x hx
      exact lt_trans (h x (List.mem_cons_of_mem _ hx)) (Nat.lt_succ_self ctr)

/-- C2 — counterexample to the claim as stated: on a fresh system the
scheduled post is assigned id 1 at scheduling time, but processing it when
due publishes a Post with id 2 (a fresh `next_post_id` value), so the id is
not carried over. -/
theorem c2_id_not_carried_counterexample :
    c2sched.2 = [⟨1, "ann", "hi", 10⟩] ∧
    c2proc.2.1.data = [⟨2, "ann", "hi", 10⟩] ∧
    c2proc.2.1.data.map (fun p => p.id) ≠ c2sched.2.map (fun sp => sp.id) := by decide

/-- C2 (amended): a ScheduledPost's id is assigned at scheduling time but
is NOT carried into the resulting Post — processing a due post publishes it
under a fresh id drawn from the `next_post_id` counter (the author and
content are carried over unchanged), so the published id differs from the
scheduled id whenever the scheduled ids precede the counter, as the
scheduling path guarantees. -/
theorem c2_publish_draws_fresh_id (ctr : Nat) (pa : PostArray2)
    (sl : List ScheduledPost) (now : Int)
    (hv : ∀ sp ∈ sl, validate_content sp.content = true)
    (hid : ∀ sp ∈ sl, sp.id < ctr) :
    (process_scheduled ctr pa sl now).2.1.data =
      pa.data ++ publish_out ctr (slist_pop_due sl now 256).1 now ∧
    List.Forall₂ (fun (sp : ScheduledPost) (p : Post) =>
      sp.id ≠ p.id ∧ p.author = sp.author ∧ p.content = sp.content)
      (slist_pop_due sl now 256).1
      (publish_out ctr (slist_pop_due sl now 256).1 now) := by
  have hvpop : ∀ sp ∈ (slist_pop_due sl now 256).1, validate_content sp.content = true :=
    fun sp hsp => hv sp (mem_slist_pop_due hsp)
  have hidpop : ∀ sp ∈ (slist_pop_due sl now 256).1, sp.id < ctr :=
    fun sp hsp => hid sp (mem_slist_pop_due hsp)
  constructor
  · show (publish_many ctr pa (slist_pop_due sl now 256).1 now).2.data = _
    exact (publish_many_spec now _ ctr pa hvpop).2
  · exact publish_out_forall₂ now _ ctr hidpop

/-- Witness for the amended C2 at the concrete one-post schedule. -/
theorem c2_publish_draws_fresh_id_witness :
    (∀ sp ∈ c2sched.2, validate_content sp.content = true) ∧
    (∀ sp ∈ c2sched.2, sp.id < 2) ∧
    ((process_scheduled 2 ⟨[], INITIAL_POST_CAP⟩ c2sched.2 10).2.1.data =
      (⟨[], INITIAL_POST_CAP⟩ : PostArray2).data ++
        publish_out 2 (slist_pop_due c2sched.2 10 256).1 10 ∧
    List.Forall₂ (fun (sp : ScheduledPost) (p : Post) =>
      sp.id ≠ p.id ∧ p.author = sp.author ∧ p.content = sp.content)
      (slist_pop_due c2sched.2 10 256).1
      (publish_out 2 (slist_pop_due c2sched.2 10 256).1 10)) :=
  ⟨by decide, by decide,
    c2_publish_draws_fresh_id 2 ⟨[], INITIAL_POST_CAP⟩ c2sched.2 10
      (by decide) (by decide)⟩

/-- C3 — counterexample to the claim as stated: a full smm.c PostArray with
capacity 16 (and 16 < 30 stored posts) grows on append to capacity 30 (the
hard cap `MAX_POSTS`), not to the doubled capacity 32 the claim requires. -/
theorem c3_doubling_clamped_counterexample :
    (posts_add exPA16 exPost).2 = true ∧
    (posts_add exPA16 exPost).1.cap = 30 ∧
    ¬ ((posts_add exPA16 exPost).1.cap = 2 * 16) := by decide

/-- C3 (amended): at the hard cap `MAX_POSTS` the append fails and leaves
the stored posts, the size and the capacity unchanged; below the cap the
post is appended and a full array grows to min(2·capacity, MAX_POSTS) —
doubling clamped to the hard cap — while a non-full array keeps its
capacity. -/
theorem c3_posts_add_cap (pa : PostArray) (p : Post) :
    (pa.data.length ≥ MAX_POSTS → posts_add pa p = (pa, false)) ∧
    (pa.data.length < MAX_POSTS →
      (posts_add pa p).2 = true ∧
      (posts_add pa p).1.data = pa.data ++ [p] ∧
      (posts_add pa p).1.cap =
        (if pa.data.length = pa.cap then min (pa.cap * 2) MAX_POSTS else pa.cap)) := by
  constructor
  · intro h
    simp [posts_add, h]
  · intro h
    have h' : ¬ pa.data.length ≥ MAX_POSTS := by omega
    by_cases hfull : pa.data.length = pa.cap
    · have h'' : ¬ MAX_POSTS ≤ pa.cap := by omega
      simp [posts_add, h', hfull, h'']
    · simp [posts_add, h', hfull]

/-- Witness for the amended C3 at the concrete full capacity-16 array. -/
theorem c3_posts_add_cap_witness :
    (exPA16.data.length ≥ MAX_POSTS → posts_add exPA16 exPost = (exPA16, false)) ∧
    (exPA16.data.length < MAX_POSTS →
      (posts_add exPA16 exPost).2 = true ∧
      (posts_add exPA16 exPost).1.data = exPA16.data ++ [exPost] ∧
      (posts_add exPA16 exPost).1.cap =
        (if exPA16.data.length = exPA16.cap then min (exPA16.cap * 2) MAX_POSTS
          else exPA16.cap)) :=
  c3_posts_add_cap exPA16 exPost

end SMM
